import Mathlib

/-!
# Verification of the cbson BSON codec (src/ext/cbson/cbson.c)

A shallow embedding of the C extension's serializer, deserializer and
ObjectId generator.  Bytes are `Nat` values below 256; machine integers are
`Nat`/`Int` with explicit reduction modulo `2^w`; Ruby exceptions become
`Except` errors.  The byte buffer (`bson_buffer.c`) and the UTF-8 validator
(`encoding_helpers.c`) are not part of src/, so they are modelled from the
spec (sections 4.1 and 4.2); every other definition is translated from
`cbson.c` directly.
-/

set_option maxRecDepth 4000

namespace CBson

/-! ## Little/big endian byte strings -/

/-- The `w` little-endian bytes of `n` (reduces `n` modulo `256^w`), as
written by `memcpy` of a little-endian machine integer. -/
def leBytes : Nat → Nat → List Nat
  | 0, _ => []
  | w + 1, n => n % 256 :: leBytes w (n / 256)

/-- Reassemble a little-endian byte string into a natural number. -/
def leVal (l : List Nat) : Nat := l.foldr (fun b acc => b + 256 * acc) 0

/-- Big-endian byte string (network byte order, as produced by `htonl`). -/
def beBytes (w n : Nat) : List Nat := (leBytes w n).reverse

/-- Value of a big-endian byte string. -/
def beVal (l : List Nat) : Nat := leVal l.reverse

/-- Reinterpret an unsigned 32-bit value as a signed C `int`. -/
def toInt32 (v : Nat) : Int := if v < 2 ^ 31 then (v : Int) else (v : Int) - 2 ^ 32

/-- Reinterpret an unsigned 64-bit value as a signed C `long long`. -/
def toInt64 (v : Nat) : Int := if v < 2 ^ 63 then (v : Int) else (v : Int) - 2 ^ 64

/-- The 4 bytes of a C `int` (two's complement, little-endian). -/
def intLE4 (x : Int) : List Nat := leBytes 4 (x % (2 : Int) ^ 32).toNat

/-- The 8 bytes of a C `long long` (two's complement, little-endian). -/
def intLE8 (x : Int) : List Nat := leBytes 8 (x % (2 : Int) ^ 64).toNat

/-! ## Reading from the input byte string

The deserializer receives a Ruby string.  Ruby strings carry a hidden NUL
terminator directly after their `len` bytes, so a C read at index `len` is
legal and yields `0`; any read outside `0..len` leaves the allocation and is
undefined behaviour, modelled as `none`. -/

/-- The byte at (pointer) offset `i` of the input, including the hidden NUL
terminator at offset `len`; `none` models an out-of-allocation read. -/
def byteAt (B : List Nat) (i : Int) : Option Nat :=
  if 0 ≤ i ∧ i < B.length then some (B.getD i.toNat 0)
  else if i = B.length then some 0
  else none

/-- `memcpy` of `n` bytes starting at offset `i`. -/
def readBytes (B : List Nat) : Int → Nat → Option (List Nat)
  | _, 0 => some []
  | i, n + 1 => do
    let b ← byteAt B i
    let r ← readBytes B (i + 1) n
    some (b :: r)

/-- Read a little-endian `int` at offset `i` (C `*(int*)(buffer + i)`). -/
def readIntLE (B : List Nat) (i : Int) : Option Int :=
  (readBytes B i 4).map (fun l => toInt32 (leVal l))

/-- Read a little-endian 64-bit signed value at offset `i`. -/
def readInt64LE (B : List Nat) (i : Int) : Option Int :=
  (readBytes B i 8).map (fun l => toInt64 (leVal l))

/-- `strlen(buffer + i)`: scan forward to the first NUL; the hidden
terminator guarantees termination inside the allocation when `i ≤ len`. -/
def strlenAt (B : List Nat) (i : Int) : Option Nat :=
  if 0 ≤ i ∧ i ≤ B.length then
    some ((B.drop i.toNat).takeWhile (fun b => b != 0)).length
  else none

/-- `strcmp(buffer + i, s) == 0` for a NUL-free literal `s`, with the
short-circuit behaviour of `strcmp` (no bytes after a mismatch are read). -/
def cstrCmpEq (B : List Nat) : List Nat → Int → Option Bool
  | [], i => (byteAt B i).map (fun b => b == 0)
  | c :: rest, i =>
    (byteAt B i).bind (fun b => if b == c then cstrCmpEq B rest (i + 1) else some false)

/-! ## The Ruby value universe seen by the codec -/

/-- A Ruby hash key as passed to `write_element`: a string, a symbol, or a
key of any other class (which `write_element` rejects with `TypeError`). -/
inductive RKey where
  | kstr (s : List Nat)
  | ksym (s : List Nat)
  | kother
deriving DecidableEq, Repr

/-- The host class of a hash: `BSON::OrderedHash` or a plain `Hash`.  Both
preserve insertion order; `write_doc` distinguishes them only to pick the
iteration mechanism. -/
inductive HashCls where
  | ordered
  | plain
deriving DecidableEq, Repr

mutual
/-- A Ruby value of one of the classes the codec dispatches on.  Doubles
are carried as their 64-bit pattern (the C code only ever `memcpy`s them);
strings are byte lists; `vtime` carries epoch milliseconds (the codec's
`round(to_f * 1000)` at millisecond precision); `vunsupported` stands for
any value of a class outside the dispatch table. -/
inductive RVal where
  | vfloat (bits : Nat)
  | vstr (s : List Nat)
  | vsym (s : List Nat)
  | vhash (cls : HashCls) (d : RDoc)
  | varr (a : RArr)
  | vbin (sub : Nat) (data : List Nat)
  | vbytebuf (data : List Nat)
  | vobjid (bytes : List Nat)
  | vbool (b : Bool)
  | vtime (ms : Int)
  | vnull
  | vint (n : Int)
  | vts (sec inc : Nat)
  | vminkey
  | vmaxkey
  | vregexNative (pattern : List Nat) (oi om ox : Bool)
  | vregexBSON (pattern : List Nat) (fi fl fm fs fu fx : Bool)
  | vregexRaw (pattern flags : List Nat) (compiled : Bool)
  | vdbref (ns oid : RVal)
  | vcode (code : List Nat) (scope : RVal)
  | vunsupported (cls : List Nat)
deriving Repr

/-- An insertion-ordered document: the entry list of a Ruby hash. -/
inductive RDoc where
  | dnil
  | dcons (k : RKey) (v : RVal) (rest : RDoc)
deriving Repr

/-- A Ruby array of values. -/
inductive RArr where
  | anil
  | acons (v : RVal) (rest : RArr)
deriving Repr
end

/-- The byte name of a key as `write_element` coerces it: symbols go through
`rb_str_new2(rb_id2name(..))`, which stops at the first NUL. -/
def keyBytesOf : RKey → List Nat
  | .kstr s => s
  | .ksym s => s.takeWhile (fun b => b != 0)
  | .kother => []

/-- The C-string prefix of a byte string (what `strcmp` sees). -/
def cstrOf (s : List Nat) : List Nat := s.takeWhile (fun b => b != 0)

/-- The bytes of `"_id"`. -/
def idB : List Nat := [95, 105, 100]

/-- The bytes of `"$ref"`. -/
def refB : List Nat := [36, 114, 101, 102]

/-- The bytes of `"$id"`. -/
def dolIdB : List Nat := [36, 105, 100]

/-- `rb_hash_aref`: first (unique, in a real Ruby hash) entry for a key;
`Qnil` when absent. -/
def docAref : RDoc → RKey → RVal
  | .dnil, _ => .vnull
  | .dcons k' v r, k => if k' = k then v else docAref r k

/-- `rb_funcall(hash, "has_key?", key)`. -/
def hasKeyD : RDoc → RKey → Bool
  | .dnil, _ => false
  | .dcons k' _ r, k => k' = k || hasKeyD r k

/-- Entry list append. -/
def dAppend : RDoc → RDoc → RDoc
  | .dnil, d2 => d2
  | .dcons k v r, d2 => .dcons k v (dAppend r d2)

/-- The coerced byte names of a document's keys, in order. -/
def docKeyBytes : RDoc → List (List Nat)
  | .dnil => []
  | .dcons k _ r => keyBytesOf k :: docKeyBytes r

/-! ## UTF-8 validation (spec-modelled) -/

/-- Result of the UTF-8 validator, per spec section 4.2. -/
inductive Utf8Result where
  | valid
  | hasNull
  | invalidUtf8
deriving DecidableEq, Repr

/-! Modelled from the spec: `validate_utf8_encoding` lives in
`encoding_helpers.c`, which is not under src/.  Section 4.2: the validator
classifies a byte slice as VALID, HAS_NULL or INVALID_UTF8 given an
allow-embedded-NUL flag; an embedded NUL with the flag off yields HAS_NULL
even if the bytes are otherwise valid UTF-8; any sequence that does not
conform to RFC 3629 yields INVALID_UTF8. -/
mutual
/-- Modelled from the spec: `validate_utf8_encoding`; see the section
comment above. -/
def validateUtf8 : List Nat → Bool → Utf8Result
  | [], _ => .valid
  | b :: rest, an =>
    if b = 0 then (if an then validateUtf8 rest an else .hasNull)
    else if b < 128 then validateUtf8 rest an
    else if 194 ≤ b ∧ b ≤ 223 then utf8Tail2 rest an
    else if 224 ≤ b ∧ b ≤ 239 then utf8Tail3 b rest an
    else if 240 ≤ b ∧ b ≤ 244 then utf8Tail4 b rest an
    else .invalidUtf8

/-- Continuation byte of a 2-byte sequence, then back to the scanner. -/
def utf8Tail2 : List Nat → Bool → Utf8Result
  | c1 :: r, an => if 128 ≤ c1 ∧ c1 ≤ 191 then validateUtf8 r an else .invalidUtf8
  | _, _ => .invalidUtf8

/-- Continuation bytes of a 3-byte sequence (E0 needs A0..BF, ED needs
80..9F). -/
def utf8Tail3 (b : Nat) : List Nat → Bool → Utf8Result
  | c1 :: c2 :: r, an =>
    if ((if b = 224 then 160 else 128) ≤ c1 ∧ c1 ≤ (if b = 237 then 159 else 191)) ∧
        (128 ≤ c2 ∧ c2 ≤ 191) then validateUtf8 r an
    else .invalidUtf8
  | _, _ => .invalidUtf8

/-- Continuation bytes of a 4-byte sequence (F0 needs 90..BF, F4 needs
80..8F). -/
def utf8Tail4 (b : Nat) : List Nat → Bool → Utf8Result
  | c1 :: c2 :: c3 :: r, an =>
    if ((if b = 240 then 144 else 128) ≤ c1 ∧ c1 ≤ (if b = 244 then 143 else 191)) ∧
        (128 ≤ c2 ∧ c2 ≤ 191) ∧ (128 ≤ c3 ∧ c3 ≤ 191) then validateUtf8 r an
    else .invalidUtf8
  | _, _ => .invalidUtf8
end

/-! ## Decimal rendering of array indices (`INT2STRING`, i.e. `"%d"`) -/

/-- Decimal digits of a positive number, least significant first. -/
def natDigitsRev : Nat → List Nat
  | 0 => []
  | n + 1 => ((n + 1) % 10 + 48) :: natDigitsRev ((n + 1) / 10)
decreasing_by exact Nat.div_lt_self (Nat.succ_pos n) (by omega)

/-- The `"%d"` rendering of an array index. -/
def decimalBytes (n : Nat) : List Nat :=
  if n = 0 then [48] else (natDigitsRev n).reverse

/-! ## The byte buffer (spec-modelled) and serializer errors -/

/-- The error classes a serialize call can raise. -/
inductive ErrKind where
  | noMem
  | invalidDocument
  | invalidKeyName
  | invalidStringEncoding
  | rangeError
  | typeError
  | noMethod
  | runtimeError
deriving DecidableEq, Repr

/-- A raised serializer error, together with whether `bson_buffer_free` was
called on the encoder buffer before the raise (claims C6/C10 are about this
flag). -/
structure SErr where
  kind : ErrKind
  buffer_freed : Bool
deriving DecidableEq, Repr

/-- Modelled from the spec: `bson_buffer.c` is not under src/.  Section 4.1
describes an append-only buffer with cursor, 4-byte reservation, in-place
patching and a max-size cap, all of whose operations can fail with
OutOfMemory.  Allocation failure is modelled by an optional byte budget. -/
structure Buf where
  data : List Nat
  maxSize : Int
  budget : Option Nat
deriving Repr

/-- `bson_buffer_get_position`. -/
def Buf.pos (b : Buf) : Int := b.data.length

/-- `bson_buffer_write`: append, or fail when the allocation budget is
exhausted (spec 4.1: all operations fail with OutOfMemory). -/
def bufWrite (b : Buf) (bytes : List Nat) : Option Buf :=
  match b.budget with
  | none => some ⟨b.data ++ bytes, b.maxSize, b.budget⟩
  | some cap =>
    if b.data.length + bytes.length ≤ cap then some ⟨b.data ++ bytes, b.maxSize, b.budget⟩
    else none

/-- The `SAFE_WRITE` macro: a failed `bson_buffer_write` raises
`rb_eNoMemError` without freeing the buffer. -/
def safeWrite (b : Buf) (bytes : List Nat) : Except SErr Buf :=
  match bufWrite b bytes with
  | some b' => .ok b'
  | none => .error ⟨.noMem, false⟩

/-- `bson_buffer_save_space(buffer, n)`: reserve `n` bytes, returning the
reservation offset. -/
def bufSaveSpace (b : Buf) (n : Nat) : Option (Int × Buf) :=
  (bufWrite b (List.replicate n 0)).map (fun b' => (((b.data.length : Int)), b'))

/-- A failed `bson_buffer_save_space` raises `rb_eNoMemError` without
freeing the buffer (both call sites in `cbson.c`). -/
def saveSpaceOrRaise (b : Buf) (n : Nat) : Except SErr (Int × Buf) :=
  match bufSaveSpace b n with
  | some p => .ok p
  | none => .error ⟨.noMem, false⟩

/-- `bson_buffer_write_at_position`: patch `bytes` in place at offset `p`. -/
def bufWriteAt (b : Buf) (p : Int) (bytes : List Nat) : Option Buf :=
  if 0 ≤ p ∧ p.toNat + bytes.length ≤ b.data.length then
    some ⟨b.data.take p.toNat ++ bytes ++ b.data.drop (p.toNat + bytes.length),
      b.maxSize, b.budget⟩
  else none

/-- The `SAFE_WRITE_AT_POS` macro: a failed patch raises
`rb_eRuntimeError` without freeing the buffer. -/
def safeWriteAt (b : Buf) (p : Int) (bytes : List Nat) : Except SErr Buf :=
  match bufWriteAt b p bytes with
  | some b' => .ok b'
  | none => .error ⟨.runtimeError, false⟩

/-! ## The encoder (`cbson.c` lines 135-726) -/

/-- `write_utf8`: validate, then `SAFE_WRITE`.  HAS_NULL and INVALID_UTF8
free the buffer before raising. -/
def writeUtf8 (b : Buf) (s : List Nat) (allowNull : Bool) : Except SErr Buf :=
  match validateUtf8 s allowNull with
  | .hasNull => .error ⟨.invalidDocument, true⟩
  | .invalidUtf8 => .error ⟨.invalidStringEncoding, true⟩
  | .valid => safeWrite b s

/-- `write_name_and_type`: one type byte, the key as UTF-8 (NULs
forbidden), one NUL terminator. -/
def writeNameAndType (b : Buf) (name : List Nat) (t : Nat) : Except SErr Buf := do
  let b ← safeWrite b [t]
  let b ← writeUtf8 b name false
  safeWrite b [0]

/-- `serialize_regex`.  The native path always writes `'m'` first (Ruby
regexps are implicitly multiline), then `'i'`, `'s'` (Ruby MULTILINE maps to
server dotall) and `'x'` in that fixed order; the `BSON::Regex` path writes
`'i' 'l' 'm' 's' 'u' 'x'` in that order.  Neither the host `Regexp` class
nor `BSON::Regex` (bson/types/regex.rb, not under src/) defines
`extra_options_str`, so the `respond_to?`-guarded qsort branch is never
taken and is not modelled. -/
def serializeRegex (b : Buf) (key pattern : List Nat) (native : Bool)
    (oi om ox : Bool) (fi fl fm fs fu fx : Bool) : Except SErr Buf := do
  let b ← writeNameAndType b key 0x0B
  let b ← writeUtf8 b pattern false
  let b ← safeWrite b [0]
  let b ←
    if native then do
      let b ← safeWrite b [109]
      let b ← if oi then safeWrite b [105] else pure b
      let b ← if om then safeWrite b [115] else pure b
      if ox then safeWrite b [120] else pure b
    else do
      let b ← if fi then safeWrite b [105] else pure b
      let b ← if fl then safeWrite b [108] else pure b
      let b ← if fm then safeWrite b [109] else pure b
      let b ← if fs then safeWrite b [115] else pure b
      let b ← if fu then safeWrite b [117] else pure b
      if fx then safeWrite b [120] else pure b
  safeWrite b [0]

/-- The condition `(rb_obj_classname(hash), "Hash") == 0` guarding the
`_id` string/symbol de-duplication in `write_doc`.  The comma operator
discards `rb_obj_classname(hash)`; the string literal `"Hash"` is a
non-null pointer, so the comparison with 0 is constantly false and the
de-duplication branch is dead code. -/
def commaHashGuard : Bool := false

/-- What the dead de-duplication branch would do if `commaHashGuard` were
true: `rb_hash_delete(hash, :_id)` removes the symbol entry and
`hash["_id"] = value` overwrites the string entry in place. -/
def dedupIdKeys (d : RDoc) : RDoc :=
  if hasKeyD d (.kstr idB) ∧ hasKeyD d (.ksym idB) then
    let symVal := docAref d (.ksym idB)
    let rec del : RDoc → RDoc
      | .dnil => .dnil
      | .dcons k v r => if k = .ksym idB then r else .dcons k v (del r)
    let rec assign : RDoc → RDoc
      | .dnil => .dnil
      | .dcons k _ r => if k = .kstr idB then .dcons k symVal r else .dcons k symVal (assign r)
    assign (del d)
  else d

/-- The `T_FIXNUM`/`T_BIGNUM` arms of `write_element`, combined on the
model's single integer constructor: a Ruby Fixnum always fits a C
`long long`, so every integer takes the combined range-check path. -/
def writeValInt (buf : Buf) (kb : List Nat) (n : Int) : Except SErr Buf :=
  if 9223372036854775807 < n ∨ n < -9223372036854775808 then
    .error ⟨.rangeError, true⟩
  else if 2147483647 < n ∨ n < -2147483648 then do
    let buf ← writeNameAndType buf kb 0x12
    safeWrite buf (intLE8 n)
  else do
    let buf ← writeNameAndType buf kb 0x10
    safeWrite buf (intLE4 n)

/-- The `T_TRUE`/`T_FALSE` arms of `write_element`. -/
def writeValBool (buf : Buf) (kb : List Nat) (b : Bool) : Except SErr Buf := do
  let buf ← writeNameAndType buf kb 0x08
  safeWrite buf [if b then 1 else 0]

/-- The `T_FLOAT` arm: the 8 bytes of the double's bit pattern. -/
def writeValFloat (buf : Buf) (kb : List Nat) (bits : Nat) : Except SErr Buf := do
  let buf ← writeNameAndType buf kb 0x01
  safeWrite buf (leBytes 8 bits)

/-- The `T_STRING` arm. -/
def writeValStr (buf : Buf) (kb s : List Nat) : Except SErr Buf := do
  let buf ← writeNameAndType buf kb 0x02
  let buf ← safeWrite buf (leBytes 4 (s.length + 1))
  let buf ← writeUtf8 buf s true
  safeWrite buf [0]

/-- The `T_SYMBOL` arm: `rb_id2name` hands back a C string, so the name is
cut at the first NUL and written with its terminator. -/
def writeValSym (buf : Buf) (kb s : List Nat) : Except SErr Buf := do
  let sv := cstrOf s
  let buf ← writeNameAndType buf kb 0x0E
  let buf ← safeWrite buf (leBytes 4 (sv.length + 1))
  safeWrite buf (sv ++ [0])

/-- The `BSON::Binary` arm: subtype 2 uses the legacy double-length form. -/
def writeValBin (buf : Buf) (kb : List Nat) (sub : Nat) (data : List Nat) :
    Except SErr Buf := do
  let sb := sub % 256
  let buf ← writeNameAndType buf kb 0x05
  let buf ←
    if sb = 2 then do
      let buf ← safeWrite buf (leBytes 4 (data.length + 4))
      let buf ← safeWrite buf [sb]
      safeWrite buf (leBytes 4 data.length)
    else do
      let buf ← safeWrite buf (leBytes 4 data.length)
      safeWrite buf [sb]
  safeWrite buf data

/-- The `ByteBuffer` arm: always subtype 2. -/
def writeValByteBuf (buf : Buf) (kb data : List Nat) : Except SErr Buf := do
  let buf ← writeNameAndType buf kb 0x05
  let buf ← safeWrite buf (leBytes 4 (data.length + 4))
  let buf ← safeWrite buf [2]
  let buf ← safeWrite buf (leBytes 4 data.length)
  safeWrite buf data

/-- The `BSON::ObjectId` arm: twelve `FIX2INT`-cast bytes from `to_a`. -/
def writeValObjid (buf : Buf) (kb bytes : List Nat) : Except SErr Buf := do
  let buf ← writeNameAndType buf kb 0x07
  safeWrite buf ((List.range 12).map (fun i => bytes.getD i 0 % 256))

/-- The `BSON::Timestamp` arm: increment first, then seconds. -/
def writeValTs (buf : Buf) (kb : List Nat) (sec inc : Nat) : Except SErr Buf := do
  let buf ← writeNameAndType buf kb 0x11
  let buf ← safeWrite buf (leBytes 4 inc)
  safeWrite buf (leBytes 4 sec)

/-- The `Time` arm: int64 epoch milliseconds. -/
def writeValTime (buf : Buf) (kb : List Nat) (ms : Int) : Except SErr Buf := do
  let buf ← writeNameAndType buf kb 0x09
  safeWrite buf (intLE8 ms)

/-- Outcome of the key coercion, `_id` suppression and `check_keys`
validation at the head of `write_element`. -/
inductive KeyGate where
  | skip
  | err (e : SErr)
  | go (kb : List Nat)
deriving DecidableEq, Repr

/-- The head of `write_element`: coerce symbol keys, reject non-string
keys with `TypeError`, skip `_id` when `allow_id` is off (`ST_CONTINUE`),
and apply the `check_keys` rules (`$` prefix, embedded `.`). -/
def keyGate (key : RKey) (checkKeys allowId : Bool) : KeyGate :=
  match key with
  | .kother => .err ⟨.typeError, true⟩
  | _ =>
    let kb := keyBytesOf key
    if allowId = false ∧ cstrOf kb = idB then .skip
    else if checkKeys ∧ kb ≠ [] ∧ kb.headD 0 = 36 then .err ⟨.invalidKeyName, true⟩
    else if checkKeys ∧ 46 ∈ kb then .err ⟨.invalidKeyName, true⟩
    else .go kb

mutual
/-- `write_element` (with `allow_id` from the `write_element_with_id` /
`write_element_without_id` wrappers): key gate, then dispatch on the
value's runtime class. -/
def writeElement (key : RKey) (v : RVal) (buf : Buf) (checkKeys allowId : Bool) :
    Except SErr Buf :=
  match keyGate key checkKeys allowId with
  | .skip => .ok buf
  | .err e => .error e
  | .go kb =>
    match v with
    | .vint n => writeValInt buf kb n
    | .vbool b => writeValBool buf kb b
    | .vfloat bits => writeValFloat buf kb bits
    | .vnull => writeNameAndType buf kb 0x0A
    | .vhash cls d => do
      let buf ← writeNameAndType buf kb 0x03
      writeDocD cls d buf checkKeys false
    | .varr a => do
      let buf ← writeNameAndType buf kb 0x04
      let startPos := buf.pos
      let (lenLoc, buf) ← saveSpaceOrRaise buf 4
      let buf ← writeArrItems a 0 buf checkKeys
      let buf ← safeWrite buf [0]
      let objLength := buf.pos - startPos
      safeWriteAt buf lenLoc (intLE4 objLength)
    | .vstr s => writeValStr buf kb s
    | .vsym s => writeValSym buf kb s
    | .vbin sub data => writeValBin buf kb sub data
    | .vbytebuf data => writeValByteBuf buf kb data
    | .vobjid bytes => writeValObjid buf kb bytes
    | .vdbref ns oid => do
      let buf ← writeNameAndType buf kb 0x03
      let startPos := buf.pos
      let (lenLoc, buf) ← saveSpaceOrRaise buf 4
      let buf ← writeElement (.kstr refB) ns buf false true
      let buf ← writeElement (.kstr dolIdB) oid buf false true
      let buf ← safeWrite buf [0]
      let objLength := buf.pos - startPos
      safeWriteAt buf lenLoc (intLE4 objLength)
    | .vcode code scope => do
      let buf ← writeNameAndType buf kb 0x0F
      let startPos := buf.pos
      let (lenLoc, buf) ← saveSpaceOrRaise buf 4
      let buf ← safeWrite buf (leBytes 4 (code.length + 1))
      let buf ← safeWrite buf code
      let buf ← safeWrite buf [0]
      -- write_doc(buffer, value.scope, Qfalse, Qfalse), inlined on the
      -- scope's class (see writeDoc below for the wrapper)
      let buf ←
        match scope with
        | .vhash cls d => writeDocD cls d buf false false
        | _ => do
          let (_, _buf2) ← saveSpaceOrRaise buf 4
          .error ⟨.invalidDocument, true⟩
      let totalLength := buf.pos - startPos
      safeWriteAt buf lenLoc (intLE4 totalLength)
    | .vmaxkey => writeNameAndType buf kb 0x7f
    | .vminkey => writeNameAndType buf kb 0xff
    | .vts sec inc => writeValTs buf kb sec inc
    | .vtime ms => writeValTime buf kb ms
    | .vregexNative pattern oi om ox =>
      serializeRegex buf kb pattern true oi om ox false false false false false false
    | .vregexBSON pattern fi fl fm fs fu fx =>
      serializeRegex buf kb pattern false false false false fi fl fm fs fu fx
    | .vregexRaw pattern flags _ =>
      serializeRegex buf kb pattern false false false false
        (flags.contains 105) (flags.contains 108) (flags.contains 109)
        (flags.contains 115) (flags.contains 117) (flags.contains 120)
    | .vunsupported _ => .error ⟨.invalidDocument, true⟩
termination_by (sizeOf v, (1 : Nat))

/-- `write_doc` on a hash argument of class `cls` with entries `d`.  With
`move_id` true, `_id` is written first (string key preferred) and further
`_id` elements are suppressed; with `move_id` false the string/symbol `_id`
de-duplication is guarded by `commaHashGuard`, which is constantly false
(see its docstring), so it never runs.  The `BSON::OrderedHash` branch
iterates `hash.keys` and `rb_hash_aref`s each one, the plain-`Hash` branch
uses `rb_hash_foreach`; with the unique keys of a real Ruby hash both visit
exactly the `(key, value)` entries in insertion order, which is how both
are modelled (`writeDocEntries`).  After the entries, the terminating NUL
is written, the length is compared against the buffer's max size, and the
reserved length slot is patched. -/
def writeDocD (_cls : HashCls) (d : RDoc) (buf : Buf) (checkKeys moveId : Bool) :
    Except SErr Buf := do
  let startPos := buf.pos
  let (lenLoc, buf) ← saveSpaceOrRaise buf 4
  let (allowId, buf) ←
    if moveId then
      if hasKeyD d (.kstr idB) then do
        let buf ← writeIdStr d buf checkKeys
        pure (false, buf)
      else if hasKeyD d (.ksym idB) then do
        let buf ← writeIdSym d buf checkKeys
        pure (false, buf)
      else pure (false, buf)
    else
      pure (true, buf)
  let buf ← writeDocEntries d buf checkKeys allowId
  let buf ← safeWrite buf [0]
  let length := buf.pos - startPos
  if buf.maxSize < length then .error ⟨.invalidDocument, true⟩
  else safeWriteAt buf lenLoc (intLE4 length)
termination_by (sizeOf d, (1 : Nat))

/-- The entry loop of `write_doc` (see `writeDocD`). -/
def writeDocEntries (d : RDoc) (buf : Buf) (checkKeys allowId : Bool) :
    Except SErr Buf :=
  match d with
  | .dnil => .ok buf
  | .dcons k v r => do
    let buf ← writeElement k v buf checkKeys allowId
    writeDocEntries r buf checkKeys allowId
termination_by (sizeOf d, (0 : Nat))

/-- The `move_id` branch writing the element under the string key `"_id"`
first (`write_element_with_id(id_str, rb_hash_aref(hash, id_str), ..)`). -/
def writeIdStr (d : RDoc) (buf : Buf) (checkKeys : Bool) : Except SErr Buf :=
  match d with
  | .dnil => .ok buf
  | .dcons k v r =>
    if k = .kstr idB then writeElement (.kstr idB) v buf checkKeys true
    else writeIdStr r buf checkKeys
termination_by (sizeOf d, (0 : Nat))

/-- The `move_id` branch writing the element under the symbol key `:_id`
first (`write_element_with_id(id_sym, rb_hash_aref(hash, id_sym), ..)`). -/
def writeIdSym (d : RDoc) (buf : Buf) (checkKeys : Bool) : Except SErr Buf :=
  match d with
  | .dnil => .ok buf
  | .dcons k v r =>
    if k = .ksym idB then writeElement (.ksym idB) v buf checkKeys true
    else writeIdSym r buf checkKeys
termination_by (sizeOf d, (0 : Nat))

/-- The item loop of the `T_ARRAY` case: decimal-string keys from index 0,
written via `write_element_with_id` with the caller's `check_keys`. -/
def writeArrItems (a : RArr) (i : Nat) (buf : Buf) (checkKeys : Bool) :
    Except SErr Buf :=
  match a with
  | .anil => .ok buf
  | .acons v r => do
    let buf ← writeElement (.kstr (decimalBytes i)) v buf checkKeys true
    writeArrItems r (i + 1) buf checkKeys
termination_by (sizeOf a, (0 : Nat))
end

/-- `write_doc` on an arbitrary argument.  With `move_id` true, `has_key?`
is sent to the argument before any class check, so a non-hash fails there
with `NoMethodError` (modelled by `ErrKind.noMethod`, buffer not freed);
with `move_id` false a non-hash reaches the class dispatch and fails with
`InvalidDocument` after the buffer is freed.  Either way the 4 length
bytes are reserved first. -/
def writeDoc (buf : Buf) (hash : RVal) (checkKeys moveId : Bool) :
    Except SErr Buf :=
  match hash with
  | .vhash cls d => writeDocD cls d buf checkKeys moveId
  | _ => do
    let (_, _buf2) ← saveSpaceOrRaise buf 4
    if moveId then .error ⟨.noMethod, false⟩
    else .error ⟨.invalidDocument, true⟩
/-- `method_serialize`: fresh buffer with the per-call max size, one
`write_doc`, hand the accumulated bytes back. -/
def serializeModel (doc : RVal) (checkKeys moveId : Bool) (maxSize : Int)
    (budget : Option Nat) : Except SErr (List Nat) := do
  let buf : Buf := ⟨[], maxSize, budget⟩
  let buf ← writeDoc buf doc checkKeys moveId
  pure buf.data

/-! ## The decoder (`cbson.c` lines 728-1003) -/

/-- Modelled from the spec: `BSON::OrderedHash#[]=` (bson/ordered_hash.rb is
not under src/).  Section 3: a document is an insertion-order-preserving
mapping with unique keys, so assignment of a fresh key appends and
assignment of an existing key overwrites in place. -/
def ordAssign : RDoc → RKey → RVal → RDoc
  | .dnil, k, v => .dcons k v .dnil
  | .dcons k' v' r, k, v =>
    if k' = k then .dcons k' v r else .dcons k' v' (ordAssign r k v)

/-- Convert the accumulated `rb_ary_push` list into the array model. -/
def listToArr : List RVal → RArr
  | [] => .anil
  | v :: r => .acons v (listToArr r)

/-- The keys of a document, in order. -/
def docKeys : RDoc → List RKey
  | .dnil => []
  | .dcons k _ r => k :: docKeys r

/-- The values of an array model as a list. -/
def arrList : RArr → List RVal
  | .anil => []
  | .acons v r => v :: arrList r

/-- How a deserialize call ends abnormally.  `typeError` is the one parse
error `get_value` raises (unknown BSON tag); `badLength` models the
`ArgumentError` Ruby raises when `rb_str_new` receives a negative length;
`outOfFrame` marks a read outside the input allocation, which in the C code
is undefined behaviour and not a raised error; `fuelOut` is an artifact of
the fuel-indexed model and never occurs for adequate fuel. -/
inductive DErr where
  | typeError (tag : Nat)
  | badLength
  | outOfFrame
  | fuelOut
deriving DecidableEq, Repr

/-- Lift an in-allocation read; `none` becomes the out-of-frame marker. -/
def orFrame {α : Type} : Option α → Except DErr α
  | some a => .ok a
  | none => .error .outOfFrame

mutual
/-- `get_value`: decode one value of tag `type` at (absolute) offset `pos`;
returns the value and the advanced offset.  Translated case by case from
the C `switch`; note that tag 6 (deprecated undefined) decodes to `Qnil`
like tag 10, and tag 13 (JavaScript) decodes to a plain string like tag 2. -/
def getValue : Nat → List Nat → Int → Nat → Bool → Except DErr (RVal × Int)
  | 0, _, _, _, _ => .error .fuelOut
  | fuel + 1, B, pos, type, cr =>
    match type with
    | 255 => .ok (.vminkey, pos)
    | 1 => do
      let bs ← orFrame (readBytes B pos 8)
      .ok (.vfloat (leVal bs), pos + 8)
    | 2 => do
      let raw ← orFrame (readIntLE B pos)
      let valueLength := raw - 1
      if valueLength < 0 then .error .badLength
      else do
        let s ← orFrame (readBytes B (pos + 4) valueLength.toNat)
        .ok (.vstr s, pos + 4 + valueLength + 1)
    | 13 => do
      let raw ← orFrame (readIntLE B pos)
      let valueLength := raw - 1
      if valueLength < 0 then .error .badLength
      else do
        let s ← orFrame (readBytes B (pos + 4) valueLength.toNat)
        .ok (.vstr s, pos + 4 + valueLength + 1)
    | 3 => do
      let size ← orFrame (readIntLE B pos)
      let isRef ← orFrame (cstrCmpEq B refB (pos + 5))
      if isRef then do
        let off0 := pos + 10
        let rawCl ← orFrame (readIntLE B off0)
        let collectionLength := rawCl - 1
        if collectionLength < 0 then .error .badLength
        else do
          let coll ← orFrame (readBytes B (off0 + 4) collectionLength.toNat)
          let off1 := off0 + 4 + collectionLength + 1
          let idType ← orFrame (byteAt B off1)
          let (idv, _) ← getValue fuel B (off1 + 5) idType cr
          .ok (.vdbref (.vstr coll) idv, pos + size)
      else do
        let d ← elementsLoop fuel B (pos + 4) (size - 5) 0 .dnil cr
        .ok (.vhash .ordered d, pos + size)
    | 4 => do
      let size ← orFrame (readIntLE B pos)
      let endPos := pos + size - 1
      let (items, pos') ← arrayLoop fuel B endPos (pos + 4) [] cr
      .ok (.varr (listToArr items), pos' + 1)
    | 5 => do
      let length ← orFrame (readIntLE B pos)
      let subtype ← orFrame (byteAt B (pos + 4))
      if subtype = 2 then
        if length - 4 < 0 then .error .badLength
        else do
          let data ← orFrame (readBytes B (pos + 9) (length - 4).toNat)
          .ok (.vbin subtype data, pos + length + 5)
      else
        if length < 0 then .error .badLength
        else do
          let data ← orFrame (readBytes B (pos + 5) length.toNat)
          .ok (.vbin subtype data, pos + length + 5)
    | 6 => .ok (.vnull, pos)
    | 7 => do
      let bs ← orFrame (readBytes B pos 12)
      .ok (.vobjid bs, pos + 12)
    | 8 => do
      let b ← orFrame (byteAt B pos)
      .ok (.vbool (b != 0), pos + 1)
    | 9 => do
      let millis ← orFrame (readInt64LE B pos)
      .ok (.vtime millis, pos + 8)
    | 10 => .ok (.vnull, pos)
    | 11 => do
      let patternLength ← orFrame (strlenAt B pos)
      let pattern ← orFrame (readBytes B pos patternLength)
      let pos := pos + patternLength + 1
      let flagsLength ← orFrame (strlenAt B pos)
      let flags ← orFrame (readBytes B pos flagsLength)
      .ok (.vregexRaw pattern flags cr, pos + flagsLength + 1)
    | 12 => do
      let rawCl ← orFrame (readIntLE B pos)
      let collectionLength := rawCl - 1
      if collectionLength < 0 then .error .badLength
      else do
        let coll ← orFrame (readBytes B (pos + 4) collectionLength.toNat)
        let pos := pos + 4 + collectionLength + 1
        let oid ← orFrame (readBytes B pos 12)
        .ok (.vdbref (.vstr coll) (.vobjid oid), pos + 12)
    | 14 => do
      let valueLength ← orFrame (readIntLE B pos)
      let sl ← orFrame (strlenAt B (pos + 4))
      let symb ← orFrame (readBytes B (pos + 4) sl)
      .ok (.vsym symb, pos + valueLength + 4)
    | 15 => do
      let pos := pos + 4
      let rawCl ← orFrame (readIntLE B pos)
      let codeLength := rawCl - 1
      if codeLength < 0 then .error .badLength
      else do
        let code ← orFrame (readBytes B (pos + 4) codeLength.toNat)
        let pos := pos + 4 + codeLength + 1
        let scopeSize ← orFrame (readIntLE B pos)
        let scope ← elementsLoop fuel B (pos + 4) (scopeSize - 5) 0 .dnil cr
        .ok (.vcode code (.vhash .ordered scope), pos + scopeSize)
    | 16 => do
      let bs ← orFrame (readBytes B pos 4)
      .ok (.vint (toInt32 (leVal bs)), pos + 4)
    | 17 => do
      let inc ← orFrame (readBytes B pos 4)
      let sec ← orFrame (readBytes B (pos + 4) 4)
      .ok (.vts (leVal sec) (leVal inc), pos + 8)
    | 18 => do
      let bs ← orFrame (readBytes B pos 8)
      .ok (.vint (toInt64 (leVal bs)), pos + 8)
    | 127 => .ok (.vmaxkey, pos)
    | _ => .error (.typeError type)

/-- The `while (position < max)` loop of `elements_to_hash`: `buffer` is
the pointer `B + off`, `position` is relative to it.  Each element appends
to the `BSON::OrderedHash` via `[]=` (`ordAssign` below, spec-modelled). -/
def elementsLoop : Nat → List Nat → Int → Int → Int → RDoc → Bool → Except DErr RDoc
  | 0, _, _, _, _, _, _ => .error .fuelOut
  | fuel + 1, B, off, mx, position, acc, cr =>
    if position < mx then do
      let type ← orFrame (byteAt B (off + position))
      let position := position + 1
      let nameLength ← orFrame (strlenAt B (off + position))
      let name ← orFrame (readBytes B (off + position) nameLength)
      let position := position + nameLength + 1
      let (v, abs') ← getValue fuel B (off + position) type cr
      let position := abs' - off
      elementsLoop fuel B off mx position (ordAssign acc (.kstr name) v) cr
    else .ok acc

/-- The `while (*position < end)` loop of the tag-4 (array) case: keys are
skipped by `strlen`, values collected in order. -/
def arrayLoop : Nat → List Nat → Int → Int → List RVal → Bool →
    Except DErr (List RVal × Int)
  | 0, _, _, _, _, _ => .error .fuelOut
  | fuel + 1, B, endPos, pos, acc, cr =>
    if pos < endPos then do
      let type ← orFrame (byteAt B pos)
      let pos := pos + 1
      let keySize ← orFrame (strlenAt B pos)
      let pos := pos + keySize + 1
      let (v, pos') ← getValue fuel B pos type cr
      arrayLoop fuel B endPos pos' (acc ++ [v]) cr
    else .ok (acc, pos)
end

/-- `method_deserialize`: skip the 4 leading length bytes, drop the 5-byte
envelope from the element budget, decode the elements into an ordered
hash.  No check relates the declared length to the actual input length. -/
def methodDeserialize (fuel : Nat) (bson : List Nat) (compileRegex : Bool) :
    Except DErr RVal :=
  (elementsLoop fuel bson 4 ((bson.length : Int) - 5) 0 .dnil compileRegex).map
    (fun d => .vhash .ordered d)

/-! ## ObjectId generation (`objectid_generate`, lines 1090-1128) -/

/-- `objectid_generate` on a little-endian host: 4 time bytes from
`htonl`, 3 hostname-digest bytes, 2 pid bytes from `htons`, then the
counter.  With `sizeof(unsigned int) == 4` the counter increments and wraps
modulo `2^32`; on any other width the source wraps it modulo `0xFFFFFF`,
i.e. `2^24 - 1`.  Either way `htonl` and the `((unsigned char*)&inc) + 1`
copy emit the low 24 bits of the updated counter in network byte order.
Returns the 12 id bytes and the updated counter. -/
def objectidGenerate (uintIs4 : Bool) (t : Nat) (digest : List Nat)
    (pid ctr : Nat) : List Nat × Nat :=
  let newCtr := if uintIs4 then (ctr + 1) % 2 ^ 32 else (ctr + 1) % 0xFFFFFF
  (beBytes 4 t ++ digest.take 3 ++ beBytes 2 pid ++ beBytes 3 newCtr, newCtr)

/-! ## Pure byte images of the encoder

`encVal v` is the payload `write_element` appends after the name for a
value `v`; `encElt`, `encDocBody` and `encArrBody` assemble elements,
document bodies and array bodies.  These are the compositional images of
the buffer-writing functions above and are related to them by the
`writeElement_app` family of theorems below. -/

/-- The regex option bytes written by the native branch of
`serialize_regex`. -/
def regexFlagsNative (oi om ox : Bool) : List Nat :=
  [109] ++ (if oi then [105] else []) ++ (if om then [115] else []) ++
    (if ox then [120] else [])

/-- The regex option bytes written by the `BSON::Regex` branch of
`serialize_regex`. -/
def regexFlagsBSON (fi fl fm fs fu fx : Bool) : List Nat :=
  (if fi then [105] else []) ++ (if fl then [108] else []) ++
    (if fm then [109] else []) ++ (if fs then [115] else []) ++
    (if fu then [117] else []) ++ (if fx then [120] else [])

/-- The flag bytes `serialize_regex` writes for a regex value. -/
def regexFlagsOf : RVal → List Nat
  | .vregexNative _ oi om ox => regexFlagsNative oi om ox
  | .vregexBSON _ fi fl fm fs fu fx => regexFlagsBSON fi fl fm fs fu fx
  | .vregexRaw _ flags _ =>
    regexFlagsBSON (flags.contains 105) (flags.contains 108) (flags.contains 109)
      (flags.contains 115) (flags.contains 117) (flags.contains 120)
  | _ => []

/-- The type tag `write_element` emits for a value. -/
def tagOf : RVal → Nat
  | .vfloat _ => 1
  | .vstr _ => 2
  | .vsym _ => 14
  | .vhash _ _ => 3
  | .varr _ => 4
  | .vbin _ _ => 5
  | .vbytebuf _ => 5
  | .vobjid _ => 7
  | .vbool _ => 8
  | .vtime _ => 9
  | .vnull => 10
  | .vint n => if 2147483647 < n ∨ n < -2147483648 then 18 else 16
  | .vts _ _ => 17
  | .vminkey => 255
  | .vmaxkey => 127
  | .vregexNative _ _ _ _ => 11
  | .vregexBSON _ _ _ _ _ _ _ => 11
  | .vregexRaw _ _ _ => 11
  | .vdbref _ _ => 3
  | .vcode _ _ => 15
  | .vunsupported _ => 0

mutual
/-- The payload bytes of a value (everything after the tag, key and key
terminator). -/
def encVal : RVal → List Nat
  | .vfloat bits => leBytes 8 bits
  | .vstr s => leBytes 4 (s.length + 1) ++ s ++ [0]
  | .vsym s => leBytes 4 ((cstrOf s).length + 1) ++ cstrOf s ++ [0]
  | .vhash _ d =>
    let b := encDocBody d
    leBytes 4 (b.length + 5) ++ b ++ [0]
  | .varr a =>
    let b := encArrBody a 0
    leBytes 4 (b.length + 5) ++ b ++ [0]
  | .vbin sub data =>
    let sb := sub % 256
    if sb = 2 then leBytes 4 (data.length + 4) ++ [sb] ++ leBytes 4 data.length ++ data
    else leBytes 4 data.length ++ [sb] ++ data
  | .vbytebuf data => leBytes 4 (data.length + 4) ++ [2] ++ leBytes 4 data.length ++ data
  | .vobjid bytes => (List.range 12).map (fun i => bytes.getD i 0 % 256)
  | .vbool b => [if b then 1 else 0]
  | .vtime ms => intLE8 ms
  | .vnull => []
  | .vint n => if 2147483647 < n ∨ n < -2147483648 then intLE8 n else intLE4 n
  | .vts sec inc => leBytes 4 inc ++ leBytes 4 sec
  | .vminkey => []
  | .vmaxkey => []
  | .vregexNative pattern oi om ox => pattern ++ [0] ++ regexFlagsNative oi om ox ++ [0]
  | .vregexBSON pattern fi fl fm fs fu fx =>
    pattern ++ [0] ++ regexFlagsBSON fi fl fm fs fu fx ++ [0]
  | .vregexRaw pattern flags c =>
    pattern ++ [0] ++ regexFlagsOf (.vregexRaw pattern flags c) ++ [0]
  | .vdbref ns oid =>
    let b := encElt refB ns ++ encElt dolIdB oid
    leBytes 4 (b.length + 5) ++ b ++ [0]
  | .vcode code scope =>
    let cs := leBytes 4 (code.length + 1) ++ code ++ [0] ++ encVal scope
    leBytes 4 (cs.length + 4) ++ cs
  | .vunsupported _ => []
termination_by v => (sizeOf v, 0)

/-- One element: tag, coerced key name, NUL, payload. -/
def encElt (k : List Nat) (v : RVal) : List Nat :=
  tagOf v :: (k ++ [0] ++ encVal v)
termination_by (sizeOf v, 1)

/-- The concatenated elements of a document. -/
def encDocBody : RDoc → List Nat
  | .dnil => []
  | .dcons k v r => encElt (keyBytesOf k) v ++ encDocBody r
termination_by d => (sizeOf d, 0)

/-- The concatenated elements of an array encoded from index `i`. -/
def encArrBody : RArr → Nat → List Nat
  | .anil, _ => []
  | .acons v r, i => encElt (decimalBytes i) v ++ encArrBody r (i + 1)
termination_by a _ => (sizeOf a, 0)
end

/-- The framed document: length prefix, body, trailing NUL. -/
def encDocFrame (d : RDoc) : List Nat :=
  leBytes 4 ((encDocBody d).length + 5) ++ encDocBody d ++ [0]

/-! ## Fuel measures and the hash-class normalizer -/

mutual
/-- Fuel sufficient to decode the encoding of a value. -/
def vMeasure : RVal → Nat
  | .vhash _ d => dMeasure d + 1
  | .varr a => aMeasure a + 1
  | .vdbref ns oid => vMeasure ns + vMeasure oid + 1
  | .vcode _ scope => vMeasure scope + 1
  | _ => 1

/-- Fuel sufficient to decode the encoding of a document body. -/
def dMeasure : RDoc → Nat
  | .dnil => 1
  | .dcons _ v r => vMeasure v + dMeasure r + 1

/-- Fuel sufficient to decode the encoding of an array body. -/
def aMeasure : RArr → Nat
  | .anil => 1
  | .acons v r => vMeasure v + aMeasure r + 1
end

mutual
/-- The decoder rebuilds every embedded document as a `BSON::OrderedHash`;
`normVal` is exactly that class change, preserving keys, order and all
byte content. -/
def normVal : RVal → RVal
  | .vhash _ d => .vhash .ordered (normDoc d)
  | .varr a => .varr (normArr a)
  | .vdbref ns oid => .vdbref (normVal ns) (normVal oid)
  | .vcode c s => .vcode c (normVal s)
  | v => v

/-- `normVal` mapped over a document's values. -/
def normDoc : RDoc → RDoc
  | .dnil => .dnil
  | .dcons k v r => .dcons k (normVal v) (normDoc r)

/-- `normVal` mapped over an array. -/
def normArr : RArr → RArr
  | .anil => .anil
  | .acons v r => .acons (normVal v) (normArr r)
end

/-! ## The non-lossy round-trip subset (claim C1)

`goodVal M v` holds when `v` is built only of the claim's subset (Double,
String, Document, Array, Binary, ObjectId, Bool, UTCDateTime, Null,
Int32/Int64, Timestamp, MinKey, MaxKey), all host values are in the ranges
the spec's data model prescribes (12-byte ObjectIds, int64 integers and
times, uint32 timestamp halves, valid UTF-8, unique NUL-free string keys),
every embedded document fits the max-size check, and no embedded document
has `"$ref"` as its first key (the decoder's DBRef special case). -/

/-- Keys of the round-trip subset: strings that are valid UTF-8 without
NUL. -/
def goodKey : RKey → Bool
  | .kstr s => validateUtf8 s false == .valid
  | _ => false

/-- First key differs from `"$ref"` (otherwise the decoder synthesizes a
DBRef from the embedded document). -/
def firstKeyOk : RDoc → Bool
  | .dnil => true
  | .dcons k _ _ => decide (keyBytesOf k ≠ refB)

mutual
/-- Membership of a value in the round-trip subset (see section header). -/
def goodVal (M : Int) : RVal → Bool
  | .vfloat bits => decide (bits < 2 ^ 64)
  | .vstr s => decide (s.length + 1 < 2 ^ 31) && (validateUtf8 s true == .valid)
  | .vhash _ d =>
    goodDoc M d && decide ((docKeyBytes d).Nodup) && firstKeyOk d &&
      decide (((encDocBody d).length : Int) + 5 ≤ M) &&
      decide ((encDocBody d).length + 5 < 2 ^ 31)
  | .varr a => goodArr M a && decide ((encArrBody a 0).length + 5 < 2 ^ 31)
  | .vbin sub data => decide (sub < 256) && decide (data.length + 5 < 2 ^ 31)
  | .vobjid bytes => decide (bytes.length = 12) && bytes.all (fun b => b < 256)
  | .vbool _ => true
  | .vtime ms => decide (-(2 ^ 63) ≤ ms ∧ ms < 2 ^ 63)
  | .vnull => true
  | .vint n => decide (-(2 ^ 63) ≤ n ∧ n < 2 ^ 63)
  | .vts sec inc => decide (sec < 2 ^ 32 ∧ inc < 2 ^ 32)
  | .vminkey => true
  | .vmaxkey => true
  | _ => false

/-- Membership of a document in the round-trip subset. -/
def goodDoc (M : Int) : RDoc → Bool
  | .dnil => true
  | .dcons k v r => goodKey k && goodVal M v && goodDoc M r

/-- Membership of an array in the round-trip subset. -/
def goodArr (M : Int) : RArr → Bool
  | .anil => true
  | .acons v r => goodVal M v && goodArr M r
end

/-- The byte after a value's encoding is not `'$'` (0x24).  Inside a
serialized document this byte is always the next element's tag or a
terminating NUL, so the decoder's `strcmp(.., "$ref")` probe on an empty
embedded document cannot fire. -/
def nonDollarAt (B : List Nat) (i : Int) : Prop := byteAt B i ≠ some 36

theorem leBytes_length (w n : Nat) : (leBytes w n).length = w := by
  induction w generalizing n with
  | zero => rfl
  | succ w ih => simp [leBytes, ih]

theorem leBytes_lt (w n : Nat) : ∀ b ∈ leBytes w n, b < 256 := by
  induction w generalizing n with
  | zero => simp [leBytes]
  | succ w ih =>
    simp only [leBytes, List.mem_cons]
    rintro b (rfl | hb)
    · omega
    · exact ih _ _ hb

theorem leVal_leBytes (w n : Nat) : leVal (leBytes w n) = n % 256 ^ w := by
  induction w generalizing n with
  | zero => simp [leBytes, leVal, Nat.mod_one]
  | succ w ih =>
    simp only [leBytes, leVal, List.foldr_cons]
    have := ih (n / 256)
    simp only [leVal] at this
    rw [this, pow_succ, mul_comm (256 ^ w) 256, Nat.mod_mul]

theorem byteAt_head (pre : List Nat) (b : Nat) (rest : List Nat) :
    byteAt (pre ++ b :: rest) (pre.length : Int) = some b := by
  unfold byteAt
  have h1 : (0 : Int) ≤ pre.length := Int.ofNat_nonneg _
  have h2 : (pre.length : Int) < (pre ++ b :: rest).length := by
    simp [List.length_append]
  rw [if_pos ⟨h1, h2⟩]
  congr 1
  have : (pre.length : Int).toNat = pre.length := Int.toNat_ofNat _
  rw [this]
  rw [List.getD_eq_getElem?_getD]
  rw [List.getElem?_append_right (le_refl _)]
  simp

theorem byteAt_terminator (B : List Nat) : byteAt B (B.length : Int) = some 0 := by
  unfold byteAt
  rw [if_neg, if_pos rfl]
  simp

theorem readBytes_append (pre l post : List Nat) :
    readBytes (pre ++ l ++ post) (pre.length : Int) l.length = some l := by
  induction l generalizing pre with
  | nil => rfl
  | cons b t ih =>
    have hb : byteAt (pre ++ b :: t ++ post) (pre.length : Int) = some b := by
      simpa using byteAt_head pre b (t ++ post)
    simp only [List.length_cons, readBytes, hb, Option.bind_eq_bind, Option.some_bind]
    have := ih (pre ++ [b])
    simp only [List.append_assoc, List.cons_append, List.nil_append,
      List.length_append, List.length_cons, List.length_nil] at this ⊢
    have harith : (pre.length : Int) + 1 = ((pre.length + 1 : Nat) : Int) := by push_cast; ring
    rw [harith]
    rw [this]
    rfl

theorem readIntLE_append (pre : List Nat) (m : Nat) (post : List Nat) :
    readIntLE (pre ++ leBytes 4 m ++ post) (pre.length : Int) =
      some (toInt32 (m % 2 ^ 32)) := by
  unfold readIntLE
  have h := readBytes_append pre (leBytes 4 m) post
  rw [leBytes_length] at h
  rw [h]
  simp [leVal_leBytes]

theorem readInt64LE_append (pre : List Nat) (m : Nat) (post : List Nat) :
    readInt64LE (pre ++ leBytes 8 m ++ post) (pre.length : Int) =
      some (toInt64 (m % 2 ^ 64)) := by
  unfold readInt64LE
  have h := readBytes_append pre (leBytes 8 m) post
  rw [leBytes_length] at h
  rw [h]
  simp [leVal_leBytes]

theorem readIntLE_small (pre : List Nat) (m : Nat) (post : List Nat)
    (hm : m < 2 ^ 31) :
    readIntLE (pre ++ leBytes 4 m ++ post) (pre.length : Int) = some (m : Int) := by
  rw [readIntLE_append]
  have h1 : m % 2 ^ 32 = m := Nat.mod_eq_of_lt (by omega)
  rw [h1]
  unfold toInt32
  rw [if_pos (by exact_mod_cast hm)]

theorem readIntLE_intLE4 (pre : List Nat) (x : Int) (post : List Nat)
    (hx : 0 ≤ x ∧ x < 2 ^ 31) :
    readIntLE (pre ++ intLE4 x ++ post) (pre.length : Int) = some x := by
  unfold intLE4
  have hxx : (x % (2 : Int) ^ 32).toNat = x.toNat := by
    rw [Int.emod_eq_of_lt hx.1 (by omega)]
  rw [hxx]
  rw [readIntLE_small pre x.toNat post (by omega)]
  congr 1
  omega

theorem toInt64_emod (x : Int) (hx : -(2 ^ 63) ≤ x ∧ x < 2 ^ 63) :
    toInt64 ((x % (2 : Int) ^ 64).toNat % 2 ^ 64) = x := by
  unfold toInt64
  split <;> omega

theorem readInt64LE_intLE8 (pre : List Nat) (x : Int) (post : List Nat)
    (hx : -(2 ^ 63) ≤ x ∧ x < 2 ^ 63) :
    readInt64LE (pre ++ intLE8 x ++ post) (pre.length : Int) = some x := by
  unfold intLE8
  rw [readInt64LE_append]
  rw [toInt64_emod x hx]

theorem takeWhile_append_nul (s rest : List Nat) (hs : ∀ b ∈ s, b ≠ 0) :
    (s ++ 0 :: rest).takeWhile (fun b => b != 0) = s := by
  induction s with
  | nil => simp [List.takeWhile]
  | cons b t ih =>
    have hb : b ≠ 0 := hs b (by simp)
    simp only [List.cons_append, List.takeWhile_cons]
    rw [if_pos (by simpa using hb)]
    rw [ih (fun x hx => hs x (by simp [hx]))]

theorem strlenAt_append (pre s rest : List Nat) (hs : ∀ b ∈ s, b ≠ 0) :
    strlenAt (pre ++ s ++ 0 :: rest) (pre.length : Int) = some s.length := by
  unfold strlenAt
  rw [if_pos (by refine ⟨by positivity, ?_⟩; simp [List.length_append]; omega)]
  congr 1
  have h1 : (pre.length : Int).toNat = pre.length := Int.toNat_ofNat _
  rw [h1, List.append_assoc, List.drop_left, takeWhile_append_nul s rest hs]

theorem cstrCmpEq_spec (p : List Nat) (hp : ∀ b ∈ p, b ≠ 0) :
    ∀ (pre k rest : List Nat), (∀ b ∈ k, b ≠ 0) →
    cstrCmpEq (pre ++ k ++ 0 :: rest) p (pre.length : Int) = some (decide (k = p)) := by
  induction p with
  | nil =>
    intro pre k rest hk
    unfold cstrCmpEq
    cases k with
    | nil =>
      have := byteAt_head pre 0 rest
      simp only [List.nil_append, List.append_assoc, List.nil_append] at this ⊢
      rw [this]
      simp
    | cons b t =>
      have hb : b ≠ 0 := hk b (by simp)
      have := byteAt_head pre b (t ++ 0 :: rest)
      simp only [List.append_assoc, List.cons_append] at this ⊢
      rw [this]
      simp [hb]
  | cons c p' ih =>
    intro pre k rest hk
    have hc : c ≠ 0 := hp c (by simp)
    unfold cstrCmpEq
    cases k with
    | nil =>
      have := byteAt_head pre 0 rest
      simp only [List.nil_append, List.append_assoc, List.nil_append] at this ⊢
      rw [this]
      simp [Ne.symm hc]
    | cons b t =>
      have hbyte := byteAt_head pre b (t ++ 0 :: rest)
      simp only [List.append_assoc, List.cons_append] at hbyte ⊢
      rw [hbyte]
      simp only [Option.some_bind]
      by_cases hbc : b = c
      · subst hbc
        rw [if_pos (by simp)]
        have := ih (fun x hx => hp x (by simp [hx])) (pre ++ [b]) t rest
          (fun x hx => hk x (by simp [hx]))
        simp only [List.append_assoc, List.cons_append, List.nil_append,
          List.length_append, List.length_cons, List.length_nil] at this
        have harith : (pre.length : Int) + 1 = ((pre.length + (0 + 1) : Nat) : Int) := by
          push_cast; ring
        rw [harith, this]
        simp
      · rw [if_neg (by simpa using hbc)]
        simp [hbc]

theorem validateUtf8_no_nul_len : ∀ (n : Nat) (s : List Nat), s.length ≤ n →
    validateUtf8 s false = .valid → ∀ b ∈ s, b ≠ 0 := by
  intro n
  induction n with
  | zero =>
    intro s hs h b hb
    rcases s with _ | ⟨x, t⟩
    · simp at hb
    · simp at hs
  | succ n ih =>
    intro s hs h c hc
    rcases s with _ | ⟨b, rest⟩
    · simp at hc
    · rw [validateUtf8] at h
      by_cases hb0 : b = 0
      · rw [if_pos hb0] at h
        simp at h
      · rw [if_neg hb0] at h
        by_cases hlt : b < 128
        · rw [if_pos hlt] at h
          simp only [List.mem_cons] at hc
          rcases hc with rfl | hc
          · exact hb0
          · exact ih rest (by simp at hs; omega) h c hc
        · rw [if_neg hlt] at h
          by_cases h2 : 194 ≤ b ∧ b ≤ 223
          · rw [if_pos h2] at h
            rcases rest with _ | ⟨c1, r⟩
            · simp [utf8Tail2] at h
            · rw [utf8Tail2] at h
              by_cases hcnd : 128 ≤ c1 ∧ c1 ≤ 191
              · rw [if_pos hcnd] at h
                simp only [List.mem_cons] at hc
                rcases hc with rfl | rfl | hc
                · exact hb0
                · omega
                · exact ih r (by simp at hs; omega) h c hc
              · rw [if_neg hcnd] at h
                simp at h
          · rw [if_neg h2] at h
            by_cases h3 : 224 ≤ b ∧ b ≤ 239
            · rw [if_pos h3] at h
              rcases rest with _ | ⟨c1, rest2⟩
              · simp [utf8Tail3] at h
              · rcases rest2 with _ | ⟨c2, r⟩
                · simp [utf8Tail3] at h
                · rw [utf8Tail3] at h
                  by_cases hcnd : ((if b = 224 then 160 else 128) ≤ c1 ∧
                      c1 ≤ (if b = 237 then 159 else 191)) ∧ (128 ≤ c2 ∧ c2 ≤ 191)
                  · rw [if_pos hcnd] at h
                    obtain ⟨⟨h1a, h1b⟩, h2a, h2b⟩ := hcnd
                    have hc1 : (128 : Nat) ≤ c1 :=
                      le_trans (by split <;> omega) h1a
                    simp only [List.mem_cons] at hc
                    rcases hc with rfl | rfl | rfl | hc
                    · exact hb0
                    · omega
                    · omega
                    · exact ih r (by simp at hs; omega) h c hc
                  · rw [if_neg hcnd] at h
                    simp at h
            · rw [if_neg h3] at h
              by_cases h4 : 240 ≤ b ∧ b ≤ 244
              · rw [if_pos h4] at h
                rcases rest with _ | ⟨c1, rest2⟩
                · simp [utf8Tail4] at h
                · rcases rest2 with _ | ⟨c2, rest3⟩
                  · simp [utf8Tail4] at h
                  · rcases rest3 with _ | ⟨c3, r⟩
                    · simp [utf8Tail4] at h
                    · rw [utf8Tail4] at h
                      by_cases hcnd : ((if b = 240 then 144 else 128) ≤ c1 ∧
                          c1 ≤ (if b = 244 then 143 else 191)) ∧
                          (128 ≤ c2 ∧ c2 ≤ 191) ∧ (128 ≤ c3 ∧ c3 ≤ 191)
                      · rw [if_pos hcnd] at h
                        obtain ⟨⟨h1a, h1b⟩, ⟨h2a, h2b⟩, h3a, h3b⟩ := hcnd
                        have hc1 : (128 : Nat) ≤ c1 :=
                          le_trans (by split <;> omega) h1a
                        simp only [List.mem_cons] at hc
                        rcases hc with rfl | rfl | rfl | rfl | hc
                        · exact hb0
                        · omega
                        · omega
                        · omega
                        · exact ih r (by simp at hs; omega) h c hc
                      · rw [if_neg hcnd] at h
                        simp at h
              · rw [if_neg h4] at h
                simp at h

theorem validateUtf8_no_nul (s : List Nat) (h : validateUtf8 s false = .valid) :
    ∀ b ∈ s, b ≠ 0 :=
  validateUtf8_no_nul_len s.length s (le_refl _) h

theorem validateUtf8_ascii (s : List Nat) (an : Bool)
    (hs : ∀ b ∈ s, 1 ≤ b ∧ b ≤ 127) : validateUtf8 s an = .valid := by
  induction s with
  | nil => rw [validateUtf8]
  | cons b t ih =>
    have hb := hs b (by simp)
    rw [validateUtf8]
    rw [if_neg (by omega), if_pos (by omega)]
    exact ih (fun x hx => hs x (by simp [hx]))

theorem natDigitsRev_digits (n : Nat) : ∀ b ∈ natDigitsRev n, 48 ≤ b ∧ b ≤ 57 := by
  induction n using Nat.strong_induction_on with
  | _ n ih =>
    match n with
    | 0 => simp [natDigitsRev]
    | m + 1 =>
      unfold natDigitsRev
      intro b hb
      rcases List.mem_cons.mp hb with rfl | hb
      · omega
      · exact ih ((m + 1) / 10) (Nat.div_lt_self (Nat.succ_pos m) (by omega)) b hb

theorem decimalBytes_digits (n : Nat) : ∀ b ∈ decimalBytes n, 48 ≤ b ∧ b ≤ 57 := by
  unfold decimalBytes
  split
  · simp
  · intro b hb
    exact natDigitsRev_digits n b (List.mem_reverse.mp hb)

theorem decimalBytes_no_nul (n : Nat) : ∀ b ∈ decimalBytes n, b ≠ 0 := by
  intro b hb
  have := decimalBytes_digits n b hb
  omega

theorem decimalBytes_valid (n : Nat) (an : Bool) :
    validateUtf8 (decimalBytes n) an = .valid := by
  apply validateUtf8_ascii
  intro b hb
  have := decimalBytes_digits n b hb
  omega

/-! ## Buffer-write computation lemmas (allocation budget `none`) -/

@[simp]
theorem exceptOk_bind {e a b : Type} (x : a) (f : a → Except e b) :
    (Except.ok x : Except e a) >>= f = f x := rfl

@[simp]
theorem exceptError_bind {e a b : Type} (err : e) (f : a → Except e b) :
    (Except.error err : Except e a) >>= f = .error err := rfl

@[simp]
theorem exceptPure {e a : Type} (x : a) : (pure x : Except e a) = .ok x := rfl

@[simp]
theorem bufPos_mk (D : List Nat) (M : Int) (bud : Option Nat) :
    Buf.pos ⟨D, M, bud⟩ = (D.length : Int) := rfl

@[simp]
theorem safeWrite_none (D : List Nat) (M : Int) (l : List Nat) :
    safeWrite ⟨D, M, none⟩ l = .ok ⟨D ++ l, M, none⟩ := rfl

theorem writeUtf8_ok (D : List Nat) (M : Int) (s : List Nat) (an : Bool)
    (h : validateUtf8 s an = .valid) :
    writeUtf8 ⟨D, M, none⟩ s an = .ok ⟨D ++ s, M, none⟩ := by
  unfold writeUtf8
  rw [h]
  rfl

theorem writeNameAndType_ok (D : List Nat) (M : Int) (name : List Nat) (t : Nat)
    (h : validateUtf8 name false = .valid) :
    writeNameAndType ⟨D, M, none⟩ name t = .ok ⟨D ++ t :: (name ++ [0]), M, none⟩ := by
  unfold writeNameAndType
  rw [safeWrite_none, exceptOk_bind, writeUtf8_ok _ _ _ _ h, exceptOk_bind,
    safeWrite_none]
  simp

@[simp]
theorem saveSpace_none (D : List Nat) (M : Int) (n : Nat) :
    saveSpaceOrRaise ⟨D, M, none⟩ n =
      .ok ((D.length : Int), ⟨D ++ List.replicate n 0, M, none⟩) := rfl

theorem bufWriteAt_patch (A Z E R : List Nat) (M : Int) (budget : Option Nat)
    (hlen : R.length = Z.length) :
    bufWriteAt ⟨A ++ Z ++ E, M, budget⟩ (A.length : Int) R =
      some ⟨A ++ R ++ E, M, budget⟩ := by
  unfold bufWriteAt
  have ht : (A.length : Int).toNat = A.length := Int.toNat_ofNat _
  rw [if_pos]
  · congr 2
    rw [ht]
    have h1 : (A ++ Z ++ E).take A.length = A := by
      rw [List.append_assoc, List.take_left]
    have h2 : (A ++ Z ++ E).drop (A.length + R.length) = E := by
      rw [hlen]
      have : A.length + Z.length = (A ++ Z).length := by simp
      rw [this, List.drop_left]
    rw [h1, h2]
  · refine ⟨by positivity, ?_⟩
    rw [ht]
    simp [hlen]

theorem safeWriteAt_patch (A Z E R : List Nat) (M : Int) (budget : Option Nat)
    (hlen : R.length = Z.length) :
    safeWriteAt ⟨A ++ Z ++ E, M, budget⟩ (A.length : Int) R =
      .ok ⟨A ++ R ++ E, M, budget⟩ := by
  unfold safeWriteAt
  rw [bufWriteAt_patch A Z E R M budget hlen]

theorem intLE4_ofNat (n : Nat) (h : n < 2 ^ 32) :
    intLE4 (n : Int) = leBytes 4 n := by
  unfold intLE4
  congr 1
  omega

theorem intLE4_length (x : Int) : (intLE4 x).length = 4 := by
  unfold intLE4
  exact leBytes_length 4 _

theorem intLE8_length (x : Int) : (intLE8 x).length = 8 := by
  unfold intLE8
  exact leBytes_length 8 _

/-! ## Per-class element lemmas: each arm appends its `encElt` image -/

theorem writeValInt_app (D : List Nat) (M : Int) (s : List Nat) (n : Int)
    (hkey : validateUtf8 s false = .valid) (hn : -(2 ^ 63) ≤ n ∧ n < 2 ^ 63) :
    writeValInt ⟨D, M, none⟩ s n = .ok ⟨D ++ encElt s (.vint n), M, none⟩ := by
  unfold writeValInt
  rw [if_neg (by omega)]
  by_cases hr : 2147483647 < n ∨ n < -2147483648
  · rw [if_pos hr, writeNameAndType_ok _ _ _ _ hkey, exceptOk_bind, safeWrite_none]
    simp [encElt, encVal, tagOf, if_pos hr]
  · rw [if_neg hr, writeNameAndType_ok _ _ _ _ hkey, exceptOk_bind, safeWrite_none]
    simp [encElt, encVal, tagOf, if_neg hr]

theorem writeValInt_err (buf : Buf) (s : List Nat) (n : Int)
    (hn : 9223372036854775807 < n ∨ n < -9223372036854775808) :
    writeValInt buf s n = .error ⟨.rangeError, true⟩ := by
  unfold writeValInt
  rw [if_pos hn]

theorem writeValBool_app (D : List Nat) (M : Int) (s : List Nat) (b : Bool)
    (hkey : validateUtf8 s false = .valid) :
    writeValBool ⟨D, M, none⟩ s b = .ok ⟨D ++ encElt s (.vbool b), M, none⟩ := by
  unfold writeValBool
  rw [writeNameAndType_ok _ _ _ _ hkey, exceptOk_bind, safeWrite_none]
  simp [encElt, encVal, tagOf]

theorem writeValFloat_app (D : List Nat) (M : Int) (s : List Nat) (bits : Nat)
    (hkey : validateUtf8 s false = .valid) :
    writeValFloat ⟨D, M, none⟩ s bits = .ok ⟨D ++ encElt s (.vfloat bits), M, none⟩ := by
  unfold writeValFloat
  rw [writeNameAndType_ok _ _ _ _ hkey, exceptOk_bind, safeWrite_none]
  simp [encElt, encVal, tagOf]

theorem writeValStr_app (D : List Nat) (M : Int) (s sv : List Nat)
    (hkey : validateUtf8 s false = .valid) (hval : validateUtf8 sv true = .valid) :
    writeValStr ⟨D, M, none⟩ s sv = .ok ⟨D ++ encElt s (.vstr sv), M, none⟩ := by
  unfold writeValStr
  rw [writeNameAndType_ok _ _ _ _ hkey, exceptOk_bind, safeWrite_none, exceptOk_bind,
    writeUtf8_ok _ _ _ _ hval, exceptOk_bind, safeWrite_none]
  simp [encElt, encVal, tagOf]

theorem writeValSym_app (D : List Nat) (M : Int) (s sv : List Nat)
    (hkey : validateUtf8 s false = .valid) :
    writeValSym ⟨D, M, none⟩ s sv = .ok ⟨D ++ encElt s (.vsym sv), M, none⟩ := by
  unfold writeValSym
  rw [writeNameAndType_ok _ _ _ _ hkey, exceptOk_bind, safeWrite_none, exceptOk_bind,
    safeWrite_none]
  simp [encElt, encVal, tagOf]

theorem writeValBin_app (D : List Nat) (M : Int) (s : List Nat) (sub : Nat)
    (data : List Nat) (hkey : validateUtf8 s false = .valid) :
    writeValBin ⟨D, M, none⟩ s sub data =
      .ok ⟨D ++ encElt s (.vbin sub data), M, none⟩ := by
  unfold writeValBin
  rw [writeNameAndType_ok _ _ _ _ hkey, exceptOk_bind]
  by_cases h2 : sub % 256 = 2
  · rw [if_pos h2]
    simp [encElt, encVal, tagOf, if_pos h2]
  · rw [if_neg h2]
    simp [encElt, encVal, tagOf, if_neg h2]

theorem writeValByteBuf_app (D : List Nat) (M : Int) (s data : List Nat)
    (hkey : validateUtf8 s false = .valid) :
    writeValByteBuf ⟨D, M, none⟩ s data =
      .ok ⟨D ++ encElt s (.vbytebuf data), M, none⟩ := by
  unfold writeValByteBuf
  rw [writeNameAndType_ok _ _ _ _ hkey, exceptOk_bind]
  simp [encElt, encVal, tagOf]

theorem writeValObjid_app (D : List Nat) (M : Int) (s bytes : List Nat)
    (hkey : validateUtf8 s false = .valid) :
    writeValObjid ⟨D, M, none⟩ s bytes =
      .ok ⟨D ++ encElt s (.vobjid bytes), M, none⟩ := by
  unfold writeValObjid
  rw [writeNameAndType_ok _ _ _ _ hkey, exceptOk_bind, safeWrite_none]
  simp [encElt, encVal, tagOf]

theorem writeValTs_app (D : List Nat) (M : Int) (s : List Nat) (sec inc : Nat)
    (hkey : validateUtf8 s false = .valid) :
    writeValTs ⟨D, M, none⟩ s sec inc =
      .ok ⟨D ++ encElt s (.vts sec inc), M, none⟩ := by
  unfold writeValTs
  rw [writeNameAndType_ok _ _ _ _ hkey, exceptOk_bind, safeWrite_none, exceptOk_bind,
    safeWrite_none]
  simp [encElt, encVal, tagOf]

theorem writeValTime_app (D : List Nat) (M : Int) (s : List Nat) (ms : Int)
    (hkey : validateUtf8 s false = .valid) :
    writeValTime ⟨D, M, none⟩ s ms = .ok ⟨D ++ encElt s (.vtime ms), M, none⟩ := by
  unfold writeValTime
  rw [writeNameAndType_ok _ _ _ _ hkey, exceptOk_bind, safeWrite_none]
  simp [encElt, encVal, tagOf]

theorem keyGate_go (s : List Nat) (ck : Bool)
    (hck : ck = true → ¬(s ≠ [] ∧ s.headD 0 = 36) ∧ 46 ∉ s) :
    keyGate (.kstr s) ck true = .go s := by
  unfold keyGate
  simp only [keyBytesOf]
  rw [if_neg (by simp)]
  by_cases hc : ck = true
  · obtain ⟨h1, h2⟩ := hck hc
    rw [if_neg (fun hcon => h1 hcon.2), if_neg (fun hcon => h2 hcon.2)]
  · rw [if_neg (fun hcon => hc hcon.1), if_neg (fun hcon => hc hcon.1)]

/-! ## The encoder appends the pure byte image (`enc*`) of its input -/

theorem patch_frame (D1 E : List Nat) (M : Int) (n : Nat) (hn : n < 2 ^ 32)
    (x : Int) (hx : x = (n : Int)) :
    safeWriteAt ⟨D1 ++ List.replicate 4 0 ++ E, M, none⟩ (D1.length : Int) (intLE4 x) =
      .ok ⟨D1 ++ leBytes 4 n ++ E, M, none⟩ := by
  subst hx
  rw [intLE4_ofNat n hn]
  exact safeWriteAt_patch D1 _ E _ M none (by simp [leBytes_length])

mutual
theorem writeElement_app (v : RVal) : ∀ (M : Int) (s D : List Nat),
    goodVal M v = true → validateUtf8 s false = .valid →
    writeElement (.kstr s) v ⟨D, M, none⟩ false true =
      .ok ⟨D ++ encElt s v, M, none⟩ := by
  intro M s D hv hkey
  rw [writeElement, keyGate_go s false (by simp)]
  simp only []
  cases v with
  | vint n =>
    simp only [goodVal, decide_eq_true_eq] at hv
    exact writeValInt_app D M s n hkey hv
  | vbool b => exact writeValBool_app D M s b hkey
  | vfloat bits =>
    simp only [goodVal, decide_eq_true_eq] at hv
    exact writeValFloat_app D M s bits hkey
  | vnull =>
    rw [writeNameAndType_ok _ _ _ _ hkey]
    simp [encElt, encVal, tagOf]
  | vminkey =>
    simp only []
    rw [writeNameAndType_ok _ _ _ _ hkey]
    simp [encElt, encVal, tagOf]
  | vmaxkey =>
    simp only []
    rw [writeNameAndType_ok _ _ _ _ hkey]
    simp [encElt, encVal, tagOf]
  | vstr sv =>
    simp only [goodVal, Bool.and_eq_true, decide_eq_true_eq, beq_iff_eq] at hv
    exact writeValStr_app D M s sv hkey hv.2
  | vts sec inc => exact writeValTs_app D M s sec inc hkey
  | vtime ms => exact writeValTime_app D M s ms hkey
  | vbin sub data =>
    simp only [goodVal, Bool.and_eq_true, decide_eq_true_eq] at hv
    exact writeValBin_app D M s sub data hkey
  | vobjid bytes => exact writeValObjid_app D M s bytes hkey
  | vhash cls d =>
    simp only [goodVal, Bool.and_eq_true, decide_eq_true_eq] at hv
    obtain ⟨⟨⟨⟨hgd, hnd⟩, hfk⟩, hfit⟩, hsmall⟩ := hv
    simp only []
    rw [writeNameAndType_ok _ _ _ _ hkey, exceptOk_bind]
    rw [writeDocD_app d cls M _ hgd hsmall]
    rw [if_neg (by push_cast; omega)]
    simp [encElt, encVal, tagOf, encDocFrame, List.append_assoc]
  | varr a =>
    simp only [goodVal, Bool.and_eq_true, decide_eq_true_eq] at hv
    obtain ⟨hga, hsmall⟩ := hv
    simp only []
    rw [writeNameAndType_ok _ _ _ _ hkey, exceptOk_bind, saveSpace_none,
      exceptOk_bind]
    simp only []
    rw [writeArrItems_app a 0 M _ hga, exceptOk_bind, safeWrite_none,
      exceptOk_bind]
    simp only [bufPos_mk]
    rw [List.append_assoc (D ++ 4 :: (s ++ [0]) ++ List.replicate 4 0)
      (encArrBody a 0) [0]]
    rw [patch_frame (D ++ 4 :: (s ++ [0])) (encArrBody a 0 ++ [0]) M
      ((encArrBody a 0).length + 5) (by omega) _
      (by simp [List.length_append]; ring_nf)]
    simp [encElt, encVal, tagOf, List.append_assoc]
  | vsym sv => simp [goodVal] at hv
  | vbytebuf data => simp [goodVal] at hv
  | vregexNative p oi om ox => simp [goodVal] at hv
  | vregexBSON p fi fl fm fs fu fx => simp [goodVal] at hv
  | vregexRaw p flags c => simp [goodVal] at hv
  | vdbref ns oid => simp [goodVal] at hv
  | vcode code scope => simp [goodVal] at hv
  | vunsupported cls => simp [goodVal] at hv
termination_by (sizeOf v, (1 : Nat))

theorem writeDocD_app (d : RDoc) : ∀ (cls : HashCls) (M : Int) (D : List Nat),
    goodDoc M d = true → (encDocBody d).length + 5 < 2 ^ 31 →
    writeDocD cls d ⟨D, M, none⟩ false false =
      (if M < (((encDocBody d).length + 5 : Nat) : Int) then
        .error ⟨.invalidDocument, true⟩
      else .ok ⟨D ++ encDocFrame d, M, none⟩) := by
  intro cls M D hgd hsmall
  rw [writeDocD]
  rw [saveSpace_none, exceptOk_bind]
  simp only []
  rw [if_neg (by simp : ¬(false = true))]
  simp only [exceptPure, exceptOk_bind]
  rw [writeDocEntries_app d M _ hgd, exceptOk_bind, safeWrite_none,
    exceptOk_bind]
  simp only [bufPos_mk]
  have hlen : ((D ++ List.replicate 4 0 ++ encDocBody d ++ [0]).length : Int) -
      (D.length : Int) = (((encDocBody d).length + 5 : Nat) : Int) := by
    simp [List.length_append]
    ring_nf
  rw [hlen]
  by_cases hM : M < (((encDocBody d).length + 5 : Nat) : Int)
  · rw [if_pos hM, if_pos hM]
  · rw [if_neg hM, if_neg hM]
    rw [List.append_assoc (D ++ List.replicate 4 0) (encDocBody d) [0]]
    rw [patch_frame D (encDocBody d ++ [0]) M ((encDocBody d).length + 5)
      (by omega) _ rfl]
    simp [encDocFrame, List.append_assoc]
termination_by (sizeOf d, (1 : Nat))

theorem writeDocEntries_app (d : RDoc) : ∀ (M : Int) (D : List Nat),
    goodDoc M d = true →
    writeDocEntries d ⟨D, M, none⟩ false true =
      .ok ⟨D ++ encDocBody d, M, none⟩ := by
  intro M D hgd
  cases d with
  | dnil =>
    rw [writeDocEntries]
    simp [encDocBody]
  | dcons k v r =>
    simp only [goodDoc, Bool.and_eq_true] at hgd
    obtain ⟨⟨hk, hv⟩, hr⟩ := hgd
    obtain ⟨ks, rfl⟩ : ∃ ks, k = .kstr ks := by
      cases k with
      | kstr ks => exact ⟨ks, rfl⟩
      | ksym ks => simp [goodKey] at hk
      | kother => simp [goodKey] at hk
    simp only [goodKey, beq_iff_eq] at hk
    rw [writeDocEntries]
    rw [writeElement_app v M ks D hv hk, exceptOk_bind]
    rw [writeDocEntries_app r M _ hr]
    simp [encDocBody, encElt, keyBytesOf, List.append_assoc]
termination_by (sizeOf d, (0 : Nat))

theorem writeArrItems_app (a : RArr) : ∀ (i : Nat) (M : Int) (D : List Nat),
    goodArr M a = true →
    writeArrItems a i ⟨D, M, none⟩ false = .ok ⟨D ++ encArrBody a i, M, none⟩ := by
  intro i M D hga
  cases a with
  | anil =>
    rw [writeArrItems]
    simp [encArrBody]
  | acons v r =>
    simp only [goodArr, Bool.and_eq_true] at hga
    obtain ⟨hv, hr⟩ := hga
    rw [writeArrItems]
    rw [writeElement_app v M (decimalBytes i) D hv (decimalBytes_valid i false),
      exceptOk_bind]
    rw [writeArrItems_app r (i + 1) M _ hr]
    simp [encArrBody, encElt, List.append_assoc]
termination_by (sizeOf a, (0 : Nat))
end

/-! ## Decoder support lemmas -/

theorem toInt32_emod (x : Int) (hx : -(2 ^ 31) ≤ x ∧ x < 2 ^ 31) :
    toInt32 ((x % (2 : Int) ^ 32).toNat % 2 ^ 32) = x := by
  unfold toInt32
  split <;> omega

theorem readIntLE_intLE4s (pre : List Nat) (x : Int) (post : List Nat)
    (hx : -(2 ^ 31) ≤ x ∧ x < 2 ^ 31) :
    readIntLE (pre ++ intLE4 x ++ post) (pre.length : Int) = some x := by
  unfold intLE4
  rw [readIntLE_append]
  exact congrArg some (toInt32_emod x hx)

theorem byteAt_some (B : List Nat) (i : Int) (h0 : 0 ≤ i) (hle : i ≤ B.length) :
    ∃ b, byteAt B i = some b := by
  unfold byteAt
  rcases lt_or_eq_of_le hle with hlt | heq
  · exact ⟨_, if_pos ⟨h0, hlt⟩⟩
  · refine ⟨0, ?_⟩
    rw [if_neg (by omega), if_pos heq]

theorem cstrCmpEq_false_head (B : List Nat) (i : Int) (b c : Nat) (rest : List Nat)
    (hb : byteAt B i = some b) (hne : b ≠ c) :
    cstrCmpEq B (c :: rest) i = some false := by
  unfold cstrCmpEq
  rw [hb]
  simp only [Option.some_bind]
  rw [if_neg (by simpa using hne)]

theorem tagOf_ne36 (M : Int) (v : RVal) (hv : goodVal M v = true) : tagOf v ≠ 36 := by
  cases v <;> simp [goodVal] at hv <;> simp [tagOf]
  · split <;> omega

theorem encElt_length_pos (k : List Nat) (v : RVal) : 0 < (encElt k v).length := by
  rw [encElt]
  simp

theorem dAppend_dnil (d : RDoc) : dAppend .dnil d = d := rfl

theorem dAppend_assoc : ∀ (a b c : RDoc),
    dAppend (dAppend a b) c = dAppend a (dAppend b c)
  | .dnil, _, _ => rfl
  | .dcons k v r, b, c => by
    simp only [dAppend]
    rw [dAppend_assoc r b c]

theorem dAppend_dnil_right : ∀ (d : RDoc), dAppend d .dnil = d
  | .dnil => rfl
  | .dcons k v r => by
    simp only [dAppend]
    rw [dAppend_dnil_right r]

theorem docKeyBytes_dAppend : ∀ (a b : RDoc),
    docKeyBytes (dAppend a b) = docKeyBytes a ++ docKeyBytes b
  | .dnil, _ => rfl
  | .dcons k v r, b => by
    simp only [dAppend, docKeyBytes]
    rw [docKeyBytes_dAppend r b]
    rfl

theorem docKeys_dAppend : ∀ (a b : RDoc),
    docKeys (dAppend a b) = docKeys a ++ docKeys b
  | .dnil, _ => rfl
  | .dcons k v r, b => by
    simp only [dAppend, docKeys]
    rw [docKeys_dAppend r b]
    rfl

theorem ordAssign_append : ∀ (acc : RDoc) (k : RKey) (v : RVal),
    hasKeyD acc k = false → ordAssign acc k v = dAppend acc (.dcons k v .dnil)
  | .dnil, _, _, _ => rfl
  | .dcons k' v' r, k, v, h => by
    simp only [hasKeyD, Bool.or_eq_false_iff, decide_eq_false_iff_not] at h
    rw [ordAssign, if_neg h.1, dAppend]
    rw [ordAssign_append r k v h.2]

theorem hasKeyD_false_of_bytes : ∀ (acc : RDoc) (name : List Nat),
    (∀ kk ∈ docKeys acc, ∃ ss, kk = RKey.kstr ss) →
    name ∉ docKeyBytes acc →
    hasKeyD acc (.kstr name) = false
  | .dnil, _, _, _ => rfl
  | .dcons k' v' r, name, hstr, hmem => by
    simp only [docKeyBytes, List.mem_cons, not_or] at hmem
    obtain ⟨ss, heq⟩ := hstr k' (by simp [docKeys])
    subst heq
    rw [hasKeyD]
    simp only [Bool.or_eq_false_iff]
    constructor
    · simp only [decide_eq_false_iff_not]
      intro hcon
      apply hmem.1
      rw [hcon]
      rfl
    · exact hasKeyD_false_of_bytes r name
        (fun kk hk => hstr kk (by simp [docKeys, hk])) hmem.2

theorem listToArr_arrList : ∀ (a : RArr), listToArr (arrList a) = a
  | .anil => rfl
  | .acons v r => by
    simp only [arrList, listToArr]
    rw [listToArr_arrList r]

theorem oidBytes_id (bytes : List Nat) (hlen : bytes.length = 12)
    (hall : bytes.all (fun b => b < 256) = true) :
    (List.range 12).map (fun i => bytes.getD i 0 % 256) = bytes := by
  simp only [List.all_eq_true, decide_eq_true_eq] at hall
  apply List.ext_getElem
  · simp [hlen]
  · intro i h1 h2
    simp only [List.getElem_map, List.getElem_range]
    rw [List.getD_eq_getElem _ _ (by omega)]
    simp at h1
    exact Nat.mod_eq_of_lt (hall _ (List.getElem_mem _))

/-! ## One-step evaluation of the decoder at each tag -/

theorem getValue_t255 (f : Nat) (B : List Nat) (pos : Int) (cr : Bool) :
    getValue (f + 1) B pos 255 cr = .ok (.vminkey, pos) := rfl

theorem getValue_t127 (f : Nat) (B : List Nat) (pos : Int) (cr : Bool) :
    getValue (f + 1) B pos 127 cr = .ok (.vmaxkey, pos) := rfl

theorem getValue_t1 (f : Nat) (B : List Nat) (pos : Int) (cr : Bool) :
    getValue (f + 1) B pos 1 cr = (do
      let bs ← orFrame (readBytes B pos 8)
      (.ok (.vfloat (leVal bs), pos + 8) : Except DErr (RVal × Int))) := rfl

theorem getValue_t2 (f : Nat) (B : List Nat) (pos : Int) (cr : Bool) :
    getValue (f + 1) B pos 2 cr = (do
      let raw ← orFrame (readIntLE B pos)
      let valueLength := raw - 1
      if valueLength < 0 then (.error .badLength : Except DErr (RVal × Int))
      else do
        let s ← orFrame (readBytes B (pos + 4) valueLength.toNat)
        .ok (.vstr s, pos + 4 + valueLength + 1)) := rfl

theorem getValue_t3 (f : Nat) (B : List Nat) (pos : Int) (cr : Bool) :
    getValue (f + 1) B pos 3 cr = (do
      let size ← orFrame (readIntLE B pos)
      let isRef ← orFrame (cstrCmpEq B refB (pos + 5))
      if isRef then do
        let off0 := pos + 10
        let rawCl ← orFrame (readIntLE B off0)
        let collectionLength := rawCl - 1
        if collectionLength < 0 then (.error .badLength : Except DErr (RVal × Int))
        else do
          let coll ← orFrame (readBytes B (off0 + 4) collectionLength.toNat)
          let off1 := off0 + 4 + collectionLength + 1
          let idType ← orFrame (byteAt B off1)
          let (idv, _) ← getValue f B (off1 + 5) idType cr
          .ok (.vdbref (.vstr coll) idv, pos + size)
      else do
        let d ← elementsLoop f B (pos + 4) (size - 5) 0 .dnil cr
        (.ok (.vhash .ordered d, pos + size) : Except DErr (RVal × Int))) := rfl

theorem getValue_t4 (f : Nat) (B : List Nat) (pos : Int) (cr : Bool) :
    getValue (f + 1) B pos 4 cr = (do
      let size ← orFrame (readIntLE B pos)
      let endPos := pos + size - 1
      let (items, pos') ← arrayLoop f B endPos (pos + 4) [] cr
      (.ok (.varr (listToArr items), pos' + 1) : Except DErr (RVal × Int))) := rfl

theorem getValue_t5 (f : Nat) (B : List Nat) (pos : Int) (cr : Bool) :
    getValue (f + 1) B pos 5 cr = (do
      let length ← orFrame (readIntLE B pos)
      let subtype ← orFrame (byteAt B (pos + 4))
      if subtype = 2 then
        if length - 4 < 0 then (.error .badLength : Except DErr (RVal × Int))
        else do
          let data ← orFrame (readBytes B (pos + 9) (length - 4).toNat)
          .ok (.vbin subtype data, pos + length + 5)
      else
        if length < 0 then (.error .badLength : Except DErr (RVal × Int))
        else do
          let data ← orFrame (readBytes B (pos + 5) length.toNat)
          .ok (.vbin subtype data, pos + length + 5)) := rfl

theorem getValue_t6 (f : Nat) (B : List Nat) (pos : Int) (cr : Bool) :
    getValue (f + 1) B pos 6 cr = .ok (.vnull, pos) := rfl

theorem getValue_t7 (f : Nat) (B : List Nat) (pos : Int) (cr : Bool) :
    getValue (f + 1) B pos 7 cr = (do
      let bs ← orFrame (readBytes B pos 12)
      (.ok (.vobjid bs, pos + 12) : Except DErr (RVal × Int))) := rfl

theorem getValue_t8 (f : Nat) (B : List Nat) (pos : Int) (cr : Bool) :
    getValue (f + 1) B pos 8 cr = (do
      let b ← orFrame (byteAt B pos)
      (.ok (.vbool (b != 0), pos + 1) : Except DErr (RVal × Int))) := rfl

theorem getValue_t9 (f : Nat) (B : List Nat) (pos : Int) (cr : Bool) :
    getValue (f + 1) B pos 9 cr = (do
      let millis ← orFrame (readInt64LE B pos)
      (.ok (.vtime millis, pos + 8) : Except DErr (RVal × Int))) := rfl

theorem getValue_t10 (f : Nat) (B : List Nat) (pos : Int) (cr : Bool) :
    getValue (f + 1) B pos 10 cr = .ok (.vnull, pos) := rfl

theorem getValue_t16 (f : Nat) (B : List Nat) (pos : Int) (cr : Bool) :
    getValue (f + 1) B pos 16 cr = (do
      let bs ← orFrame (readBytes B pos 4)
      (.ok (.vint (toInt32 (leVal bs)), pos + 4) : Except DErr (RVal × Int))) := rfl

theorem getValue_t17 (f : Nat) (B : List Nat) (pos : Int) (cr : Bool) :
    getValue (f + 1) B pos 17 cr = (do
      let inc ← orFrame (readBytes B pos 4)
      let sec ← orFrame (readBytes B (pos + 4) 4)
      (.ok (.vts (leVal sec) (leVal inc), pos + 8) : Except DErr (RVal × Int))) := rfl

theorem getValue_t18 (f : Nat) (B : List Nat) (pos : Int) (cr : Bool) :
    getValue (f + 1) B pos 18 cr = (do
      let bs ← orFrame (readBytes B pos 8)
      (.ok (.vint (toInt64 (leVal bs)), pos + 8) : Except DErr (RVal × Int))) := rfl

theorem elementsLoop_succ (f : Nat) (B : List Nat) (off mx p : Int) (acc : RDoc)
    (cr : Bool) :
    elementsLoop (f + 1) B off mx p acc cr =
      (if p < mx then do
        let type ← orFrame (byteAt B (off + p))
        let p := p + 1
        let nameLength ← orFrame (strlenAt B (off + p))
        let name ← orFrame (readBytes B (off + p) nameLength)
        let p := p + nameLength + 1
        let (v, abs') ← getValue f B (off + p) type cr
        let p := abs' - off
        elementsLoop f B off mx p (ordAssign acc (.kstr name) v) cr
      else .ok acc) := rfl

theorem arrayLoop_succ (f : Nat) (B : List Nat) (endPos pos : Int)
    (acc : List RVal) (cr : Bool) :
    arrayLoop (f + 1) B endPos pos acc cr =
      (if pos < endPos then do
        let type ← orFrame (byteAt B pos)
        let pos := pos + 1
        let keySize ← orFrame (strlenAt B pos)
        let pos := pos + keySize + 1
        let (v, pos') ← getValue f B pos type cr
        arrayLoop f B endPos pos' (acc ++ [v]) cr
      else .ok (acc, pos)) := rfl

@[simp]
theorem orFrame_some {α : Type} (a : α) : orFrame (some a) = .ok a := rfl

@[simp]
theorem orFrame_none {α : Type} : (orFrame none : Except DErr α) = .error .outOfFrame := rfl

/-! ## Decoder correctness on encoder output -/

theorem vMeasure_pos (v : RVal) : 1 ≤ vMeasure v := by
  cases v <;> simp [vMeasure]

theorem dMeasure_pos (d : RDoc) : 1 ≤ dMeasure d := by
  cases d <;> simp [dMeasure]

theorem aMeasure_pos (a : RArr) : 1 ≤ aMeasure a := by
  cases a <;> simp [aMeasure]

mutual
theorem decVal_ok (v : RVal) : ∀ (M : Int) (fuel : Nat) (pre post : List Nat)
    (cr : Bool),
    goodVal M v = true → vMeasure v ≤ fuel →
    nonDollarAt (pre ++ encVal v ++ post)
      ((pre.length : Int) + ((encVal v).length : Int)) →
    getValue fuel (pre ++ encVal v ++ post) (pre.length : Int) (tagOf v) cr =
      .ok (normVal v, (pre.length : Int) + ((encVal v).length : Int)) := by
  intro M fuel pre post cr hv hfuel hnd
  obtain ⟨f, rfl⟩ : ∃ f, fuel = f + 1 :=
    ⟨fuel - 1, by have := vMeasure_pos v; omega⟩
  cases v with
  | vfloat bits =>
    simp only [goodVal, decide_eq_true_eq] at hv
    rw [tagOf, getValue_t1]
    have h := readBytes_append pre (leBytes 8 bits) post
    rw [leBytes_length] at h
    simp only [encVal]
    rw [h]
    simp only [orFrame_some, exceptOk_bind]
    rw [leVal_leBytes]
    rw [Nat.mod_eq_of_lt (by omega : bits < 256 ^ 8)]
    simp [normVal, leBytes_length]
  | vstr s =>
    simp only [goodVal, Bool.and_eq_true, decide_eq_true_eq, beq_iff_eq] at hv
    rw [tagOf, getValue_t2]
    simp only [encVal]
    have hint := readIntLE_small pre (s.length + 1) (s ++ [0] ++ post) (by omega)
    simp only [List.append_assoc] at hint ⊢
    rw [hint]
    simp only [orFrame_some, exceptOk_bind]
    rw [if_neg (by omega)]
    have hrd := readBytes_append (pre ++ leBytes 4 (s.length + 1)) s ([0] ++ post)
    simp only [List.append_assoc, List.length_append, leBytes_length] at hrd
    have harith : (pre.length : Int) + 4 = ((pre.length + 4 : Nat) : Int) := by
      push_cast; ring
    have harith2 : ((s.length + 1 : Nat) : Int) - 1 = ((s.length : Nat) : Int) := by
      push_cast; ring
    rw [harith2, Int.toNat_ofNat, harith, hrd]
    simp only [orFrame_some, exceptOk_bind]
    simp [normVal, leBytes_length, List.length_append]
    ring
  | vbool b =>
    rw [tagOf, getValue_t8]
    have h := byteAt_head pre (if b then 1 else 0) post
    simp only [encVal, List.append_assoc, List.singleton_append] at hnd ⊢
    rw [h]
    simp only [orFrame_some, exceptOk_bind]
    cases b <;> simp [normVal]
  | vnull =>
    rw [tagOf, getValue_t10]
    simp [normVal, encVal]
  | vminkey =>
    rw [tagOf, getValue_t255]
    simp [normVal, encVal]
  | vmaxkey =>
    rw [tagOf, getValue_t127]
    simp [normVal, encVal]
  | vint n =>
    simp only [goodVal, decide_eq_true_eq] at hv
    by_cases hr : 2147483647 < n ∨ n < -2147483648
    · rw [tagOf, if_pos hr, getValue_t18]
      simp only [encVal, if_pos hr]
      unfold intLE8
      have h := readBytes_append pre (leBytes 8 (n % (2 : Int) ^ 64).toNat) post
      rw [leBytes_length] at h
      rw [h]
      simp only [orFrame_some, exceptOk_bind]
      rw [leVal_leBytes]
      rw [(by norm_num : (256 : Nat) ^ 8 = 2 ^ 64)]
      rw [toInt64_emod n (by omega)]
      simp [normVal, leBytes_length]
    · rw [tagOf, if_neg hr, getValue_t16]
      simp only [encVal, if_neg hr]
      unfold intLE4
      have h := readBytes_append pre (leBytes 4 (n % (2 : Int) ^ 32).toNat) post
      rw [leBytes_length] at h
      rw [h]
      simp only [orFrame_some, exceptOk_bind]
      rw [leVal_leBytes]
      rw [(by norm_num : (256 : Nat) ^ 4 = 2 ^ 32)]
      rw [toInt32_emod n (by omega)]
      simp [normVal, leBytes_length]
  | vtime ms =>
    simp only [goodVal, decide_eq_true_eq] at hv
    rw [tagOf, getValue_t9]
    simp only [encVal]
    rw [readInt64LE_intLE8 pre ms post (by omega)]
    simp only [orFrame_some, exceptOk_bind]
    unfold intLE8
    simp [normVal, leBytes_length]
  | vts sec inc =>
    simp only [goodVal, decide_eq_true_eq] at hv
    rw [tagOf, getValue_t17]
    simp only [encVal]
    have h1 := readBytes_append pre (leBytes 4 inc) (leBytes 4 sec ++ post)
    rw [leBytes_length] at h1
    simp only [List.append_assoc] at h1 ⊢
    rw [h1]
    simp only [orFrame_some, exceptOk_bind]
    have h2 := readBytes_append (pre ++ leBytes 4 inc) (leBytes 4 sec) post
    rw [leBytes_length] at h2
    simp only [List.append_assoc, List.length_append, leBytes_length] at h2
    have harith : (pre.length : Int) + 4 = ((pre.length + 4 : Nat) : Int) := by
      push_cast; ring
    rw [harith, h2]
    simp only [orFrame_some, exceptOk_bind]
    rw [leVal_leBytes, leVal_leBytes]
    rw [(by norm_num : (256 : Nat) ^ 4 = 2 ^ 32)]
    rw [Nat.mod_eq_of_lt (by omega : sec < 2 ^ 32),
      Nat.mod_eq_of_lt (by omega : inc < 2 ^ 32)]
    simp [normVal, leBytes_length]
  | vobjid bytes =>
    simp only [goodVal, Bool.and_eq_true, decide_eq_true_eq] at hv
    rw [tagOf, getValue_t7]
    have hlen : (encVal (RVal.vobjid bytes)).length = 12 := by simp [encVal]
    have h := readBytes_append pre (encVal (RVal.vobjid bytes)) post
    rw [hlen] at h
    rw [h]
    simp only [orFrame_some, exceptOk_bind]
    simp only [encVal]
    rw [oidBytes_id bytes hv.1 hv.2]
    simp [normVal, encVal, hv.1]
  | vbin sub data =>
    simp only [goodVal, Bool.and_eq_true, decide_eq_true_eq] at hv
    have hsb : sub % 256 = sub := Nat.mod_eq_of_lt hv.1
    rw [tagOf, getValue_t5]
    by_cases h2 : sub = 2
    · subst h2
      have he : encVal (RVal.vbin 2 data) =
          leBytes 4 (data.length + 4) ++ 2 :: (leBytes 4 data.length ++ data) := by
        simp [encVal]
      rw [he]
      have hint := readIntLE_small pre (data.length + 4)
        (2 :: (leBytes 4 data.length ++ data) ++ post) (by omega)
      simp only [List.append_assoc, List.cons_append] at hint ⊢
      rw [hint]
      simp only [orFrame_some, exceptOk_bind]
      have hsub := byteAt_head (pre ++ leBytes 4 (data.length + 4)) 2
        (leBytes 4 data.length ++ data ++ post)
      simp only [List.append_assoc, List.length_append, leBytes_length,
        List.cons_append] at hsub
      rw [(by push_cast; ring : (pre.length : Int) + 4 = ((pre.length + 4 : Nat) : Int)),
        hsub]
      simp only [orFrame_some, exceptOk_bind]
      rw [if_true]
      rw [if_neg (by omega)]
      have hrd := readBytes_append
        (pre ++ leBytes 4 (data.length + 4) ++ 2 :: leBytes 4 data.length) data post
      simp only [List.append_assoc, List.length_append, leBytes_length,
        List.length_cons, List.cons_append, List.nil_append] at hrd
      rw [(by omega : (((data.length + 4 : Nat) : Int) - 4).toNat = data.length)]
      rw [(by push_cast; ring : (pre.length : Int) + 9 =
        ((pre.length + (4 + (4 + 1)) : Nat) : Int))]
      rw [hrd]
      simp only [orFrame_some, exceptOk_bind]
      simp only [normVal, Except.ok.injEq, Prod.mk.injEq, List.length_append,
        leBytes_length, List.length_cons]
      exact ⟨trivial, by push_cast; ring⟩
    · have he : encVal (RVal.vbin sub data) =
          leBytes 4 data.length ++ sub :: data := by
        simp [encVal, hsb, h2]
      rw [he]
      have hint := readIntLE_small pre data.length (sub :: data ++ post) (by omega)
      simp only [List.append_assoc, List.cons_append] at hint ⊢
      rw [hint]
      simp only [orFrame_some, exceptOk_bind]
      have hsub := byteAt_head (pre ++ leBytes 4 data.length) sub (data ++ post)
      simp only [List.append_assoc, List.length_append, leBytes_length,
        List.cons_append] at hsub
      rw [(by push_cast; ring : (pre.length : Int) + 4 = ((pre.length + 4 : Nat) : Int)),
        hsub]
      simp only [orFrame_some, exceptOk_bind]
      rw [if_neg h2]
      rw [if_neg (by omega)]
      have hrd := readBytes_append (pre ++ leBytes 4 data.length ++ [sub]) data post
      simp only [List.append_assoc, List.length_append, leBytes_length,
        List.length_singleton, List.cons_append, List.singleton_append,
        List.nil_append] at hrd
      rw [Int.toNat_ofNat]
      rw [(by push_cast; ring : (pre.length : Int) + 5 =
        ((pre.length + (4 + 1) : Nat) : Int))]
      rw [hrd]
      simp only [orFrame_some, exceptOk_bind]
      simp only [normVal, Except.ok.injEq, Prod.mk.injEq, List.length_append,
        leBytes_length, List.length_cons]
      exact ⟨trivial, by push_cast; ring⟩
  | vhash cls d =>
    simp only [goodVal, Bool.and_eq_true, decide_eq_true_eq] at hv
    obtain ⟨⟨⟨⟨hgd, hdnodup⟩, hfk⟩, hfit⟩, hsmall⟩ := hv
    simp only [vMeasure] at hfuel
    rw [tagOf, getValue_t3]
    have he : encVal (RVal.vhash cls d) =
        leBytes 4 ((encDocBody d).length + 5) ++ (encDocBody d ++ [0]) := by
      simp [encVal]
    rw [he] at hnd ⊢
    have hint := readIntLE_small pre ((encDocBody d).length + 5)
      (encDocBody d ++ [0] ++ post) (by omega)
    simp only [List.append_assoc, List.cons_append, List.singleton_append,
      List.nil_append] at hint hnd ⊢
    rw [hint]
    simp only [orFrame_some, exceptOk_bind]
    have hprobe : cstrCmpEq
        (pre ++ (leBytes 4 ((encDocBody d).length + 5) ++ (encDocBody d ++ 0 :: post)))
        refB ((pre.length : Int) + 5) = some false := by
      cases d with
      | dnil =>
        simp only [encDocBody, List.nil_append, List.length_nil, zero_add] at hnd ⊢
        obtain ⟨b, hb⟩ := byteAt_some (pre ++ (leBytes 4 5 ++ 0 :: post))
          ((pre.length : Int) + 5) (by positivity)
          (by simp [List.length_append, leBytes_length]; omega)
        have hbne : b ≠ 36 := by
          intro hcon
          subst hcon
          apply hnd
          rw [← hb]
          congr 1
        exact cstrCmpEq_false_head _ _ b 36 [114, 101, 102] hb hbne
      | dcons k v r =>
        obtain ⟨ks, rfl⟩ : ∃ ss, k = RKey.kstr ss := by
          cases k with
          | kstr ss => exact ⟨ss, rfl⟩
          | ksym ss => simp [goodDoc, goodKey] at hgd
          | kother => simp [goodDoc, goodKey] at hgd
        have hknul : ∀ b ∈ ks, b ≠ 0 := by
          apply validateUtf8_no_nul
          simp only [goodDoc, goodKey, Bool.and_eq_true, beq_iff_eq] at hgd
          exact hgd.1.1
        have hcs := cstrCmpEq_spec refB (by decide)
          (pre ++ leBytes 4 ((encDocBody (RDoc.dcons (RKey.kstr ks) v r)).length + 5) ++
            [tagOf v]) ks (encVal v ++ (encDocBody r ++ 0 :: post)) hknul
        simp only [List.append_assoc, List.length_append, leBytes_length,
          List.length_singleton, encDocBody, encElt, keyBytesOf,
          List.cons_append, List.singleton_append, List.nil_append] at hcs ⊢
        rw [(by push_cast; ring : (pre.length : Int) + 5 =
          ((pre.length + (4 + 1) : Nat) : Int))]
        rw [hcs]
        have hne : ks ≠ refB := by
          simp only [firstKeyOk, keyBytesOf, decide_eq_true_eq] at hfk
          exact hfk
        simp [hne]
    rw [hprobe]
    simp only [orFrame_some, exceptOk_bind, Bool.false_eq_true, if_false]
    have hloop := decElems_ok d M f (pre ++ leBytes 4 ((encDocBody d).length + 5))
      (0 :: post) ((pre.length : Int) + 4) 0 .dnil cr hgd (by omega)
      (by simpa [docKeyBytes] using hdnodup)
      (by intro kk h; simp [docKeys] at h)
      (by simp only [List.length_append, leBytes_length]; push_cast; ring)
      (by
        intro hcon
        have hbyte := byteAt_head
          (pre ++ leBytes 4 ((encDocBody d).length + 5) ++ encDocBody d) 0 post
        simp only [List.append_assoc, List.length_append, leBytes_length,
          List.cons_append] at hbyte hcon
        rw [(by push_cast; ring :
          ((pre.length + (4 + (encDocBody d).length) : Nat) : Int) =
          ((pre.length + 4 : Nat) : Int) + ((encDocBody d).length : Int))] at hbyte
        rw [hbyte] at hcon
        simp at hcon)
    simp only [zero_add, List.append_assoc, List.length_append, leBytes_length]
      at hloop
    rw [(by push_cast; ring : (((encDocBody d).length + 5 : Nat) : Int) - 5 =
      ((encDocBody d).length : Int))]
    rw [hloop]
    simp only [exceptOk_bind, dAppend_dnil]
    simp only [normVal, Except.ok.injEq, Prod.mk.injEq, List.length_append,
      leBytes_length, List.length_singleton]
    exact ⟨trivial, by push_cast; ring⟩
  | varr a =>
    simp only [goodVal, Bool.and_eq_true, decide_eq_true_eq] at hv
    obtain ⟨hga, hsmall⟩ := hv
    simp only [vMeasure] at hfuel
    rw [tagOf, getValue_t4]
    have he : encVal (RVal.varr a) =
        leBytes 4 ((encArrBody a 0).length + 5) ++ (encArrBody a 0 ++ [0]) := by
      simp [encVal]
    rw [he] at hnd ⊢
    have hint := readIntLE_small pre ((encArrBody a 0).length + 5)
      (encArrBody a 0 ++ [0] ++ post) (by omega)
    simp only [List.append_assoc, List.cons_append, List.singleton_append,
      List.nil_append] at hint hnd ⊢
    rw [hint]
    simp only [orFrame_some, exceptOk_bind]
    have hloop := decArr_ok a M 0 f (pre ++ leBytes 4 ((encArrBody a 0).length + 5))
      (0 :: post) [] cr hga (by omega)
      (by
        intro hcon
        have hbyte := byteAt_head
          (pre ++ leBytes 4 ((encArrBody a 0).length + 5) ++ encArrBody a 0) 0 post
        simp only [List.append_assoc, List.length_append, leBytes_length,
          List.cons_append] at hbyte hcon
        rw [(by push_cast; ring :
          ((pre.length + (4 + (encArrBody a 0).length) : Nat) : Int) =
          ((pre.length + 4 : Nat) : Int) + ((encArrBody a 0).length : Int))] at hbyte
        rw [hbyte] at hcon
        simp at hcon)
    simp only [List.append_assoc, List.length_append, leBytes_length] at hloop
    rw [(by push_cast; ring : (pre.length : Int) +
      (((encArrBody a 0).length + 5 : Nat) : Int) - 1 =
      ((pre.length + 4 : Nat) : Int) + ((encArrBody a 0).length : Int))]
    rw [(by push_cast; ring : (pre.length : Int) + 4 = ((pre.length + 4 : Nat) : Int))]
    rw [hloop]
    simp only [exceptOk_bind, List.nil_append]
    rw [listToArr_arrList]
    simp only [normVal, Except.ok.injEq, Prod.mk.injEq, List.length_append,
      leBytes_length, List.length_singleton]
    exact ⟨trivial, by push_cast; ring⟩
  | vsym s => simp [goodVal] at hv
  | vbytebuf data => simp [goodVal] at hv
  | vregexNative p oi om ox => simp [goodVal] at hv
  | vregexBSON p fi fl fm fs fu fx => simp [goodVal] at hv
  | vregexRaw p flags c => simp [goodVal] at hv
  | vdbref ns oid => simp [goodVal] at hv
  | vcode code scope => simp [goodVal] at hv
  | vunsupported cls => simp [goodVal] at hv
termination_by sizeOf v

theorem decElems_ok (d : RDoc) : ∀ (M : Int) (fuel : Nat) (pre post : List Nat)
    (off p : Int) (acc : RDoc) (cr : Bool),
    goodDoc M d = true → dMeasure d ≤ fuel →
    ((docKeyBytes acc ++ docKeyBytes d).Nodup) →
    (∀ kk ∈ docKeys acc, ∃ ss, kk = RKey.kstr ss) →
    off + p = (pre.length : Int) →
    nonDollarAt (pre ++ encDocBody d ++ post)
      ((pre.length : Int) + ((encDocBody d).length : Int)) →
    elementsLoop fuel (pre ++ encDocBody d ++ post) off
      (p + ((encDocBody d).length : Int)) p acc cr =
      .ok (dAppend acc (normDoc d)) := by
  intro M fuel pre post off p acc cr hgd hfuel hnodup haccstr hoffp hnd
  obtain ⟨f, rfl⟩ : ∃ f, fuel = f + 1 :=
    ⟨fuel - 1, by have := dMeasure_pos d; omega⟩
  cases d with
  | dnil =>
    rw [elementsLoop_succ]
    rw [if_neg (by simp [encDocBody])]
    simp [normDoc, dAppend_dnil_right]
  | dcons k v r =>
    simp only [dMeasure] at hfuel
    simp only [goodDoc, Bool.and_eq_true] at hgd
    obtain ⟨⟨hk, hv⟩, hr⟩ := hgd
    obtain ⟨ks, rfl⟩ : ∃ ss, k = RKey.kstr ss := by
      cases k with
      | kstr ss => exact ⟨ss, rfl⟩
      | ksym ss => simp [goodKey] at hk
      | kother => simp [goodKey] at hk
    simp only [goodKey, beq_iff_eq] at hk
    have hknul : ∀ b ∈ ks, b ≠ 0 := validateUtf8_no_nul ks hk
    rw [elementsLoop_succ]
    rw [if_pos (by
      have h2 : (encDocBody (RDoc.dcons (RKey.kstr ks) v r)).length =
          (encElt ks v).length + (encDocBody r).length := by
        simp [encDocBody, keyBytesOf]
      have h3 := encElt_length_pos ks v
      omega)]
    simp only [encDocBody, encElt, keyBytesOf, List.append_assoc,
      List.cons_append, List.singleton_append, List.nil_append,
      List.length_append, List.length_cons, List.length_singleton,
      List.length_nil] at hnd ⊢
    have htag := byteAt_head pre (tagOf v)
      (ks ++ 0 :: (encVal v ++ (encDocBody r ++ post)))
    simp only [List.append_assoc, List.cons_append] at htag
    rw [hoffp, htag]
    simp only [orFrame_some, exceptOk_bind]
    have hslen := strlenAt_append (pre ++ [tagOf v]) ks
      (encVal v ++ (encDocBody r ++ post)) hknul
    simp only [List.append_assoc, List.cons_append, List.singleton_append,
      List.length_append, List.length_singleton, List.nil_append] at hslen
    rw [(by omega : off + (p + 1) = ((pre.length + 1 : Nat) : Int)), hslen]
    simp only [orFrame_some, exceptOk_bind]
    have hname := readBytes_append (pre ++ [tagOf v]) ks
      (0 :: (encVal v ++ (encDocBody r ++ post)))
    simp only [List.append_assoc, List.cons_append, List.singleton_append,
      List.length_append, List.length_singleton, List.nil_append] at hname
    rw [hname]
    simp only [orFrame_some, exceptOk_bind]
    have hval := decVal_ok v M f (pre ++ [tagOf v] ++ ks ++ [0])
      (encDocBody r ++ post) cr hv (by omega)
      (by
        intro hcon
        simp only [List.append_assoc, List.cons_append, List.singleton_append,
          List.length_append, List.length_singleton, List.length_cons,
          List.length_nil, List.nil_append] at hcon
        cases r with
        | dnil =>
          apply hnd
          simp only [encDocBody, List.nil_append, List.append_nil,
            List.length_nil] at hcon ⊢
          rw [← hcon]
          congr 1
          push_cast
          ring
        | dcons k2 v2 r2 =>
          have hv2 : goodVal M v2 = true := by
            simp only [goodDoc, Bool.and_eq_true] at hr
            exact hr.1.2
          simp only [encDocBody, encElt, List.append_assoc, List.cons_append,
            List.singleton_append, List.nil_append, List.length_append,
            List.length_cons, List.length_singleton, List.length_nil] at hcon
          have hbyte := byteAt_head (pre ++ [tagOf v] ++ ks ++ [0] ++ encVal v)
            (tagOf v2)
            (keyBytesOf k2 ++ 0 :: (encVal v2 ++ (encDocBody r2 ++ post)))
          simp only [List.append_assoc, List.cons_append, List.singleton_append,
            List.length_append, List.length_singleton, List.length_cons,
            List.length_nil, List.nil_append] at hbyte
          have h36 : (some (tagOf v2) : Option Nat) = some 36 := by
            rw [← hbyte, ← hcon]
            congr 1
            push_cast
            ring
          exact tagOf_ne36 M v2 hv2 (by simpa using h36))
    simp only [List.append_assoc, List.cons_append, List.singleton_append,
      List.length_append, List.length_singleton, List.length_cons,
      List.length_nil, List.nil_append] at hval
    rw [(by omega : off + (p + 1 + ((ks.length : Nat) : Int) + 1) =
      ((pre.length + (ks.length + 1 + 1) : Nat) : Int))]
    rw [hval]
    simp only [exceptOk_bind]
    have hks_not_acc : ks ∉ docKeyBytes acc := by
      simp only [docKeyBytes, keyBytesOf] at hnodup
      rw [List.nodup_append] at hnodup
      intro hmem
      exact hnodup.2.2 hmem (by simp)
    rw [ordAssign_append acc (RKey.kstr ks) (normVal v)
      (hasKeyD_false_of_bytes acc ks haccstr hks_not_acc)]
    have hrest := decElems_ok r M f (pre ++ [tagOf v] ++ ks ++ [0] ++ encVal v) post
      off (((pre.length + (ks.length + 1 + 1) : Nat) : Int) +
        ((encVal v).length : Int) - off)
      (dAppend acc (RDoc.dcons (RKey.kstr ks) (normVal v) RDoc.dnil)) cr hr
      (by omega)
      (by
        rw [docKeyBytes_dAppend]
        simp only [docKeyBytes, keyBytesOf] at hnodup ⊢
        have hsh : (docKeyBytes acc ++ [ks]) ++ docKeyBytes r =
            docKeyBytes acc ++ ks :: docKeyBytes r := by simp
        rw [hsh]
        exact hnodup)
      (by
        intro kk hkmem
        rw [docKeys_dAppend] at hkmem
        simp only [docKeys, List.mem_append, List.mem_cons] at hkmem
        rcases hkmem with hmem | hmem
        · exact haccstr kk hmem
        · rcases hmem with rfl | hfalse
          · exact ⟨ks, rfl⟩
          · simp at hfalse)
      (by
        simp only [List.length_append, List.length_singleton]
        push_cast
        omega)
      (by
        intro hcon
        apply hnd
        simp only [List.append_assoc, List.cons_append, List.singleton_append,
          List.length_append, List.length_singleton, List.length_cons,
          List.length_nil, List.nil_append] at hcon ⊢
        rw [← hcon]
        congr 1
        push_cast
        ring)
    simp only [List.append_assoc, List.cons_append, List.singleton_append,
      List.length_append, List.length_singleton, List.length_cons,
      List.length_nil, List.nil_append] at hrest
    have hfin : dAppend acc (normDoc (RDoc.dcons (RKey.kstr ks) v r)) =
        dAppend (dAppend acc (RDoc.dcons (RKey.kstr ks) (normVal v) RDoc.dnil))
          (normDoc r) := by
      rw [dAppend_assoc]
      simp [normDoc, dAppend]
    rw [(by omega : p +
      ((ks.length + ((encVal v).length + (encDocBody r).length + 1) + 1 : Nat) : Int) =
      ((pre.length + (ks.length + 1 + 1) : Nat) : Int) + ((encVal v).length : Int) - off +
        ((encDocBody r).length : Int))]
    rw [hfin]
    exact hrest
termination_by sizeOf d

theorem decArr_ok (a : RArr) : ∀ (M : Int) (i : Nat) (fuel : Nat)
    (pre post : List Nat) (acc : List RVal) (cr : Bool),
    goodArr M a = true → aMeasure a ≤ fuel →
    nonDollarAt (pre ++ encArrBody a i ++ post)
      ((pre.length : Int) + ((encArrBody a i).length : Int)) →
    arrayLoop fuel (pre ++ encArrBody a i ++ post)
      ((pre.length : Int) + ((encArrBody a i).length : Int))
      (pre.length : Int) acc cr =
      .ok (acc ++ arrList (normArr a),
        (pre.length : Int) + ((encArrBody a i).length : Int)) := by
  intro M i fuel pre post acc cr hga hfuel hnd
  obtain ⟨f, rfl⟩ : ∃ f, fuel = f + 1 :=
    ⟨fuel - 1, by have := aMeasure_pos a; omega⟩
  cases a with
  | anil =>
    rw [arrayLoop_succ]
    rw [if_neg (by simp [encArrBody])]
    simp [normArr, arrList, encArrBody]
  | acons v r =>
    simp only [aMeasure] at hfuel
    simp only [goodArr, Bool.and_eq_true] at hga
    obtain ⟨hv, hr⟩ := hga
    have hknul : ∀ b ∈ decimalBytes i, b ≠ 0 := decimalBytes_no_nul i
    rw [arrayLoop_succ]
    rw [if_pos (by
      have h2 : (encArrBody (RArr.acons v r) i).length =
          (encElt (decimalBytes i) v).length + (encArrBody r (i + 1)).length := by
        simp [encArrBody]
      have h3 := encElt_length_pos (decimalBytes i) v
      omega)]
    simp only [encArrBody, encElt, List.append_assoc, List.cons_append,
      List.singleton_append, List.nil_append, List.length_append,
      List.length_cons, List.length_singleton, List.length_nil] at hnd ⊢
    have htag := byteAt_head pre (tagOf v)
      (decimalBytes i ++ 0 :: (encVal v ++ (encArrBody r (i + 1) ++ post)))
    simp only [List.append_assoc, List.cons_append] at htag
    rw [htag]
    simp only [orFrame_some, exceptOk_bind]
    have hslen := strlenAt_append (pre ++ [tagOf v]) (decimalBytes i)
      (encVal v ++ (encArrBody r (i + 1) ++ post)) hknul
    simp only [List.append_assoc, List.cons_append, List.singleton_append,
      List.length_append, List.length_singleton, List.nil_append] at hslen
    rw [(by push_cast; ring : (pre.length : Int) + 1 =
      ((pre.length + 1 : Nat) : Int)), hslen]
    simp only [orFrame_some, exceptOk_bind]
    have hval := decVal_ok v M f (pre ++ [tagOf v] ++ decimalBytes i ++ [0])
      (encArrBody r (i + 1) ++ post) cr hv (by omega)
      (by
        intro hcon
        simp only [List.append_assoc, List.cons_append, List.singleton_append,
          List.length_append, List.length_singleton, List.length_cons,
          List.length_nil, List.nil_append] at hcon
        cases r with
        | anil =>
          apply hnd
          simp only [encArrBody, List.nil_append, List.append_nil,
            List.length_nil] at hcon ⊢
          rw [← hcon]
          congr 1
          push_cast
          ring
        | acons v2 r2 =>
          have hv2 : goodVal M v2 = true := by
            simp only [goodArr, Bool.and_eq_true] at hr
            exact hr.1
          simp only [encArrBody, encElt, List.append_assoc, List.cons_append,
            List.singleton_append, List.nil_append, List.length_append,
            List.length_cons, List.length_singleton, List.length_nil] at hcon
          have hbyte := byteAt_head
            (pre ++ [tagOf v] ++ decimalBytes i ++ [0] ++ encVal v) (tagOf v2)
            (decimalBytes (i + 1) ++ 0 ::
              (encVal v2 ++ (encArrBody r2 (i + 1 + 1) ++ post)))
          simp only [List.append_assoc, List.cons_append, List.singleton_append,
            List.length_append, List.length_singleton, List.length_cons,
            List.length_nil, List.nil_append] at hbyte
          have h36 : (some (tagOf v2) : Option Nat) = some 36 := by
            rw [← hbyte, ← hcon]
            congr 1
            push_cast
            ring
          exact tagOf_ne36 M v2 hv2 (by simpa using h36))
    simp only [List.append_assoc, List.cons_append, List.singleton_append,
      List.length_append, List.length_singleton, List.length_cons,
      List.length_nil, List.nil_append] at hval
    rw [(by push_cast; ring :
      ((pre.length + 1 : Nat) : Int) + (((decimalBytes i).length : Nat) : Int) + 1 =
      ((pre.length + ((decimalBytes i).length + 1 + 1) : Nat) : Int))]
    rw [hval]
    simp only [exceptOk_bind]
    have hrest := decArr_ok r M (i + 1) f
      (pre ++ [tagOf v] ++ decimalBytes i ++ [0] ++ encVal v) post
      (acc ++ [normVal v]) cr hr (by omega)
      (by
        intro hcon
        apply hnd
        simp only [List.append_assoc, List.cons_append, List.singleton_append,
          List.length_append, List.length_singleton, List.length_cons,
          List.length_nil, List.nil_append] at hcon ⊢
        rw [← hcon]
        congr 1
        push_cast
        ring)
    simp only [List.append_assoc, List.cons_append, List.singleton_append,
      List.length_append, List.length_singleton, List.length_cons,
      List.length_nil, List.nil_append] at hrest
    have hfin : acc ++ arrList (normArr (RArr.acons v r)) =
        acc ++ normVal v :: arrList (normArr r) := by
      simp [normArr, arrList]
    rw [(by push_cast; ring :
      ((pre.length + ((decimalBytes i).length + 1 + 1) : Nat) : Int) +
        ((encVal v).length : Int) =
      ((pre.length + ((decimalBytes i).length + ((encVal v).length + 1) + 1) : Nat) : Int))]
    rw [(by push_cast; ring : (pre.length : Int) +
      (((decimalBytes i).length + ((encVal v).length + (encArrBody r (i + 1)).length + 1) + 1 : Nat) : Int) =
      ((pre.length + ((decimalBytes i).length + ((encVal v).length + 1) + 1) : Nat) : Int) +
        ((encArrBody r (i + 1)).length : Int))]
    rw [hfin]
    exact hrest
termination_by sizeOf a
end

/-! ## Whole-call theorems: serialize and deserialize round trip -/

theorem serializeModel_ok (cls : HashCls) (d : RDoc) (M : Int)
    (hgd : goodDoc M d = true) (hsmall : (encDocBody d).length + 5 < 2 ^ 31)
    (hfit : ¬(M < (((encDocBody d).length + 5 : Nat) : Int))) :
    serializeModel (.vhash cls d) false false M none = .ok (encDocFrame d) := by
  unfold serializeModel writeDoc
  simp only []
  rw [writeDocD_app d cls M [] hgd hsmall]
  rw [if_neg hfit]
  simp

theorem methodDeserialize_frame (d : RDoc) (M : Int) (fuel : Nat) (cr : Bool)
    (hgd : goodDoc M d = true) (hnodup : (docKeyBytes d).Nodup)
    (hfuel : dMeasure d ≤ fuel) :
    methodDeserialize fuel (encDocFrame d) cr =
      .ok (.vhash .ordered (normDoc d)) := by
  unfold methodDeserialize encDocFrame
  have h := decElems_ok d M fuel (leBytes 4 ((encDocBody d).length + 5)) [0]
    4 0 .dnil cr hgd hfuel (by simpa [docKeyBytes] using hnodup)
    (by intro kk hkk; simp [docKeys] at hkk)
    (by simp [leBytes_length])
    (by
      intro hcon
      have hbyte := byteAt_head
        (leBytes 4 ((encDocBody d).length + 5) ++ encDocBody d) 0 []
      rw [(by push_cast [List.length_append, leBytes_length]; ring :
        (((leBytes 4 ((encDocBody d).length + 5) ++ encDocBody d).length : Nat) : Int) =
        (((leBytes 4 ((encDocBody d).length + 5)).length : Nat) : Int) +
          ((encDocBody d).length : Int))] at hbyte
      rw [hbyte] at hcon
      simp at hcon)
  have hmx : (((leBytes 4 ((encDocBody d).length + 5) ++ encDocBody d ++ [0]).length : Nat) : Int) - 5 =
      (0 : Int) + ((encDocBody d).length : Int) := by
    simp [List.length_append, leBytes_length]
    omega
  rw [hmx, h]
  simp [dAppend_dnil, Except.map]

/-! ## Key checking and the DBRef bypass -/

theorem keyGate_err (s : List Nat)
    (h : (s ≠ [] ∧ s.headD 0 = 36) ∨ 46 ∈ s) :
    keyGate (.kstr s) true true = .err ⟨.invalidKeyName, true⟩ := by
  unfold keyGate
  simp only [keyBytesOf]
  rw [if_neg (by simp)]
  by_cases h1 : s ≠ [] ∧ s.headD 0 = 36
  · rw [if_pos ⟨trivial, h1⟩]
  · rcases h with h | h
    · exact absurd h h1
    · rw [if_neg (fun hcon => h1 hcon.2), if_pos ⟨trivial, h⟩]

theorem writeElement_keyErr (s : List Nat) (v : RVal) (D : List Nat) (M : Int)
    (bud : Option Nat) (h : (s ≠ [] ∧ s.headD 0 = 36) ∨ 46 ∈ s) :
    writeElement (.kstr s) v ⟨D, M, bud⟩ true true =
      .error ⟨.invalidKeyName, true⟩ := by
  rw [writeElement, keyGate_err s h]

theorem writeElement_dbref (s ns ob D : List Nat) (M : Int)
    (hkey : validateUtf8 s false = .valid)
    (hck : ¬(s ≠ [] ∧ s.headD 0 = 36) ∧ 46 ∉ s)
    (hns : goodVal M (.vstr ns) = true)
    (hob : goodVal M (.vobjid ob) = true) :
    writeElement (.kstr s) (.vdbref (.vstr ns) (.vobjid ob)) ⟨D, M, none⟩
        true true =
      .ok ⟨D ++ encElt s (.vdbref (.vstr ns) (.vobjid ob)), M, none⟩ := by
  have hblen : (encElt refB (RVal.vstr ns) ++ encElt dolIdB (RVal.vobjid ob)).length =
      ns.length + 28 := by
    simp [encElt, encVal, keyBytesOf, refB, dolIdB, leBytes_length,
      List.length_append]
    omega
  have hns' : ns.length + 1 < 2 ^ 31 := by
    simp only [goodVal, Bool.and_eq_true, decide_eq_true_eq] at hns
    exact hns.1
  rw [writeElement, keyGate_go s true (fun _ => hck)]
  simp only []
  rw [writeNameAndType_ok _ _ _ _ hkey, exceptOk_bind, saveSpace_none,
    exceptOk_bind]
  simp only []
  rw [writeElement_app (.vstr ns) M refB _ hns (by decide), exceptOk_bind]
  rw [writeElement_app (.vobjid ob) M dolIdB _ hob (by decide), exceptOk_bind]
  rw [safeWrite_none, exceptOk_bind]
  simp only [bufPos_mk]
  rw [List.append_assoc
    (D ++ 3 :: (s ++ [0]) ++ List.replicate 4 0 ++ encElt refB (RVal.vstr ns))
    (encElt dolIdB (RVal.vobjid ob)) [0]]
  rw [List.append_assoc (D ++ 3 :: (s ++ [0]) ++ List.replicate 4 0)
    (encElt refB (RVal.vstr ns))
    (encElt dolIdB (RVal.vobjid ob) ++ [0])]
  rw [← List.append_assoc (encElt refB (RVal.vstr ns))
    (encElt dolIdB (RVal.vobjid ob)) [0]]
  rw [patch_frame (D ++ 3 :: (s ++ [0]))
    (encElt refB (RVal.vstr ns) ++ encElt dolIdB (RVal.vobjid ob) ++ [0]) M
    ((encElt refB (RVal.vstr ns) ++ encElt dolIdB (RVal.vobjid ob)).length + 5)
    (by rw [hblen]; omega) _
    (by simp [List.length_append]; ring_nf)]
  simp [encElt, encVal, tagOf, List.append_assoc]

/-! ## The claims -/

/-- C1: the round-trip claim, corrected.  The original claim fails when an
embedded document's first key is `"$ref"` (the decoder then synthesizes a
DBRef, see the counterexample); it also silently requires NUL-free valid
UTF-8 string keys, unique keys, and the documents to fit the size cap.  On
the subset `goodVal`/`goodDoc` carve out (which adds exactly those
conditions), `serialize` emits the standard frame and `deserialize` returns
the same document, keys in order, every embedded document rebuilt as a
`BSON::OrderedHash` (`normDoc`). -/
theorem C1_roundtrip (cls : HashCls) (d : RDoc) (fuel : Nat) (cr : Bool)
    (hgood : goodDoc 4194304 d = true)
    (hnodup : (docKeyBytes d).Nodup)
    (hfit : (encDocBody d).length + 5 ≤ 4194304)
    (hfuel : dMeasure d ≤ fuel) :
    serializeModel (.vhash cls d) false false 4194304 none =
      .ok (encDocFrame d) ∧
    methodDeserialize fuel (encDocFrame d) cr =
      .ok (.vhash .ordered (normDoc d)) := by
  have hsmall : (encDocBody d).length + 5 < 2 ^ 31 := by omega
  exact ⟨serializeModel_ok cls d 4194304 hgood hsmall (by push_cast; omega),
    methodDeserialize_frame d 4194304 fuel cr hgood hnodup hfuel⟩

/-- C1 witness: the round trip at the concrete document `{"hi": 1}`. -/
theorem C1_roundtrip_witness :
    serializeModel (.vhash .ordered (.dcons (.kstr [104, 105]) (.vint 1) .dnil))
        false false 4194304 none =
      .ok (encDocFrame (.dcons (.kstr [104, 105]) (.vint 1) .dnil)) ∧
    methodDeserialize 3 (encDocFrame (.dcons (.kstr [104, 105]) (.vint 1) .dnil))
        true =
      .ok (.vhash .ordered (normDoc (.dcons (.kstr [104, 105]) (.vint 1) .dnil))) :=
  C1_roundtrip .ordered (.dcons (.kstr [104, 105]) (.vint 1) .dnil) 3 true
    (by decide) (by decide)
    (by simp [encDocBody, encElt, encVal, tagOf, keyBytesOf, intLE4, leBytes_length])
    (by decide)

/-- C1 counterexample: the document `{"a": {"$ref": "c", "$id": 5}}` is
built only of the claim's value kinds, yet `deserialize(serialize(d))`
returns `{"a": DBRef("c", 5)}` — the embedded document is replaced by a
DBRef because its first key is `"$ref"`. -/
theorem C1_counterexample :
    serializeModel
        (.vhash .ordered (.dcons (.kstr [97])
          (.vhash .ordered (.dcons (.kstr refB) (.vstr [99])
            (.dcons (.kstr dolIdB) (.vint 5) .dnil))) .dnil))
        false false 4194304 none =
      .ok [34, 0, 0, 0, 3, 97, 0, 26, 0, 0, 0, 2, 36, 114, 101, 102, 0, 2, 0, 0,
        0, 99, 0, 16, 36, 105, 100, 0, 5, 0, 0, 0, 0, 0] ∧
    methodDeserialize 12
        [34, 0, 0, 0, 3, 97, 0, 26, 0, 0, 0, 2, 36, 114, 101, 102, 0, 2, 0, 0,
          0, 99, 0, 16, 36, 105, 100, 0, 5, 0, 0, 0, 0, 0] true =
      .ok (.vhash .ordered (.dcons (.kstr [97])
        (.vdbref (.vstr [99]) (.vint 5)) .dnil)) := by
  constructor
  · simp [serializeModel, writeDoc, writeDocD, writeDocEntries, writeElement,
      keyGate, keyBytesOf, cstrOf, idB, refB, dolIdB, writeValInt, writeValStr,
      writeNameAndType, writeUtf8, validateUtf8, utf8Tail2, safeWrite, bufWrite,
      saveSpaceOrRaise, bufSaveSpace, safeWriteAt, bufWriteAt, Buf.pos, intLE4,
      leBytes]
  · rfl

/-- C2: corrected.  `deserialize` never mutates its input (the model is
pure), but it does not bounds-check against the declared frame length: an
input shorter than the 5-byte envelope is accepted and decodes to the empty
document with no error at all (this theorem), and a declared length larger
than the input makes the element loop read past the end of the allocation
(the counterexample's `outOfFrame`), which in the C code is an
out-of-bounds read, not a raised parse error. -/
theorem C2_shortInput (B : List Nat) (cr : Bool) (fuel : Nat)
    (hshort : B.length < 5) (hfuel : 1 ≤ fuel) :
    methodDeserialize fuel B cr = .ok (.vhash .ordered .dnil) := by
  obtain ⟨f, rfl⟩ : ∃ f, fuel = f + 1 := ⟨fuel - 1, by omega⟩
  unfold methodDeserialize
  rw [elementsLoop_succ]
  rw [if_neg (by omega)]
  rfl

/-- C2 witness: the 3-byte input `[1, 2, 3]` decodes to `{}`. -/
theorem C2_shortInput_witness :
    methodDeserialize 1 [1, 2, 3] true = .ok (.vhash .ordered .dnil) :=
  C2_shortInput [1, 2, 3] true 1 (by decide) (by decide)

/-- C2 counterexample: a 6-byte input declaring a 22-byte frame drives the
string case to read past the end of the allocation (`outOfFrame` marks the
out-of-bounds read; no parse error is raised), and the empty input decodes
to `{}` with no error. -/
theorem C2_counterexample :
    methodDeserialize 10 [22, 0, 0, 0, 2, 104] true = .error .outOfFrame ∧
    methodDeserialize 1 [] true = .ok (.vhash .ordered .dnil) := ⟨rfl, rfl⟩

/-- C3: the `_id` de-duplication the claim describes is dead code.  The
guard compiles as `("Hash") == 0` (comma operator), which is constantly
false (`commaHashGuard`), so a plain-Hash document holding both the string
key `"_id"` and the symbol key `:_id` serializes both entries: the output
below contains two `_id` Int32 elements (values 1 and 2), with no
coalescing. -/
theorem C3_idDedupDead :
    commaHashGuard = false ∧
    serializeModel (.vhash .plain (.dcons (.kstr idB) (.vint 1)
        (.dcons (.ksym idB) (.vint 2) .dnil))) false false 100 none =
      .ok [23, 0, 0, 0, 16, 95, 105, 100, 0, 1, 0, 0, 0,
        16, 95, 105, 100, 0, 2, 0, 0, 0, 0] := by
  refine ⟨rfl, ?_⟩
  simp [serializeModel, writeDoc, writeDocD, writeDocEntries, writeElement,
    keyGate, keyBytesOf, cstrOf, idB, writeValInt, writeNameAndType, writeUtf8,
    validateUtf8, safeWrite, bufWrite, saveSpaceOrRaise, bufSaveSpace,
    safeWriteAt, bufWriteAt, Buf.pos, intLE4, leBytes]

/-- C4: corrected.  Regex flag bytes are deduplicated and drawn from
`{i, l, m, s, u, x}`, a native host regex always carries `m`, and the
`BSON::Regex` path is sorted; but the native path writes `'m'` first and
`'i'` after it, so with ignorecase set the flags are `"mi"` — not
lexicographically sorted (the counterexample). -/
theorem C4_regexFlags :
    (∀ oi om ox : Bool, (regexFlagsNative oi om ox).Nodup ∧
      (∀ b ∈ regexFlagsNative oi om ox, b ∈ [105, 108, 109, 115, 117, 120]) ∧
      109 ∈ regexFlagsNative oi om ox ∧
      ((regexFlagsNative oi om ox).Pairwise (· < ·) ↔ oi = false)) ∧
    (∀ fi fl fm fs fu fx : Bool,
      (regexFlagsBSON fi fl fm fs fu fx).Pairwise (· < ·) ∧
      ∀ b ∈ regexFlagsBSON fi fl fm fs fu fx,
        b ∈ [105, 108, 109, 115, 117, 120]) := by
  decide

/-- C4 counterexample: an ignorecase native regex serializes with flag
bytes `"mi"` (`[109, 105]`), which is not sorted. -/
theorem C4_counterexample :
    serializeRegex ⟨[], 100, none⟩ [107] [97] true true false false
        false false false false false false =
      .ok ⟨[11, 107, 0, 97, 0, 109, 105, 0], 100, none⟩ ∧
    regexFlagsNative true false false = [109, 105] ∧
    ¬(regexFlagsNative true false false).Pairwise (· ≤ ·) := by
  exact ⟨rfl, rfl, by decide⟩

/-- C5: integer range selection, exactly as claimed: Int32 tag 0x10 with a
4-byte payload inside `[-2^31, 2^31-1]`, Int64 tag 0x12 with an 8-byte
payload outside that but inside `[-2^63, 2^63-1]`, and `RangeError` (with
the buffer freed) beyond `[-2^63, 2^63-1]`. -/
theorem C5_intRanges (n : Int) (s D : List Nat) (M : Int)
    (hkey : validateUtf8 s false = .valid) :
    ((-(2 ^ 31) ≤ n ∧ n < 2 ^ 31) →
      writeElement (.kstr s) (.vint n) ⟨D, M, none⟩ false true =
        .ok ⟨D ++ 16 :: (s ++ [0] ++ intLE4 n), M, none⟩) ∧
    (((2 ^ 31 ≤ n ∨ n < -(2 ^ 31)) ∧ -(2 ^ 63) ≤ n ∧ n < 2 ^ 63) →
      writeElement (.kstr s) (.vint n) ⟨D, M, none⟩ false true =
        .ok ⟨D ++ 18 :: (s ++ [0] ++ intLE8 n), M, none⟩) ∧
    ((2 ^ 63 ≤ n ∨ n < -(2 ^ 63)) →
      writeElement (.kstr s) (.vint n) ⟨D, M, none⟩ false true =
        .error ⟨.rangeError, true⟩) := by
  have hgate : writeElement (.kstr s) (.vint n) ⟨D, M, none⟩ false true =
      writeValInt ⟨D, M, none⟩ s n := by
    rw [writeElement, keyGate_go s false (by simp)]
  refine ⟨?_, ?_, ?_⟩
  · intro h
    rw [hgate, writeValInt_app D M s n hkey (by omega)]
    have hr : ¬(2147483647 < n ∨ n < -2147483648) := by omega
    simp only [encElt, encVal, tagOf, if_neg hr]
  · intro h
    rw [hgate, writeValInt_app D M s n hkey (by omega)]
    have hr : 2147483647 < n ∨ n < -2147483648 := by omega
    simp only [encElt, encVal, tagOf, if_pos hr]
  · intro h
    rw [hgate, writeValInt_err _ s n (by omega)]

/-- C5 witness: the three ranges at 5, 2^40 and 2^63 under the key "a". -/
theorem C5_intRanges_witness :
    writeElement (.kstr [97]) (.vint 5) ⟨[], 100, none⟩ false true =
      .ok ⟨[] ++ 16 :: ([97] ++ [0] ++ intLE4 5), 100, none⟩ ∧
    writeElement (.kstr [97]) (.vint (2 ^ 40)) ⟨[], 100, none⟩ false true =
      .ok ⟨[] ++ 18 :: ([97] ++ [0] ++ intLE8 (2 ^ 40)), 100, none⟩ ∧
    writeElement (.kstr [97]) (.vint (2 ^ 63)) ⟨[], 100, none⟩ false true =
      .error ⟨.rangeError, true⟩ :=
  ⟨(C5_intRanges 5 [97] [] 100 (by decide)).1 (by norm_num),
    (C5_intRanges (2 ^ 40) [97] [] 100 (by decide)).2.1 (by norm_num),
    (C5_intRanges (2 ^ 63) [97] [] 100 (by decide)).2.2 (by norm_num)⟩

/-- C6: corrected.  The size cap holds: a document longer than `max_size`
fails with `InvalidDocument` after the buffer is freed (this theorem).  But
the freeing half of the claim is wrong for the allocation-failure paths:
`SAFE_WRITE`, `bson_buffer_save_space` and `SAFE_WRITE_AT_POS` raise
`NoMemError` / `RuntimeError` without freeing the buffer, and the `move_id`
`has_key?` dispatch raises `NoMethodError` without freeing (see the
counterexample and C10). -/
theorem C6_sizeCap (cls : HashCls) (d : RDoc) (D : List Nat) (M : Int)
    (hgood : goodDoc M d = true)
    (hsmall : (encDocBody d).length + 5 < 2 ^ 31)
    (hover : M < (((encDocBody d).length + 5 : Nat) : Int)) :
    writeDocD cls d ⟨D, M, none⟩ false false =
      .error ⟨.invalidDocument, true⟩ := by
  rw [writeDocD_app d cls M D hgood hsmall, if_pos hover]

/-- C6 witness: the empty document against max size 4. -/
theorem C6_sizeCap_witness :
    writeDocD .ordered .dnil ⟨[], 4, none⟩ false false =
      .error ⟨.invalidDocument, true⟩ :=
  C6_sizeCap .ordered .dnil [] 4 (by decide) (by simp [encDocBody])
    (by simp [encDocBody])

/-- C6 counterexample: with an allocation budget of 3 bytes the very first
reservation fails and serialize raises `NoMemError` with
`buffer_freed = false` — an error that propagates without freeing the
buffer; the size-cap error itself does free (second conjunct). -/
theorem C6_counterexample :
    serializeModel (.vhash .ordered .dnil) false false 100 (some 3) =
      .error ⟨.noMem, false⟩ ∧
    serializeModel (.vhash .ordered .dnil) false false 4 none =
      .error ⟨.invalidDocument, true⟩ := by
  constructor <;>
    simp [serializeModel, writeDoc, writeDocD, writeDocEntries, safeWrite,
      bufWrite, saveSpaceOrRaise, bufSaveSpace, safeWriteAt, bufWriteAt,
      Buf.pos, intLE4, leBytes, encDocBody]

/-- C7: confirmed.  With `check_keys=true` a key that begins with `'$'`
(byte 36) or contains `'.'` (byte 46) fails with `InvalidKeyName` for any
value; and a DBRef value's internal sub-document writes its `"$ref"` and
`"$id"` keys through `write_element` with `check_keys=0`, so serialization
succeeds under `check_keys=true` and emits those dollar keys. -/
theorem C7_keyCheck (s ns ob D : List Nat) (M : Int) (v : RVal) :
    (((s ≠ [] ∧ s.headD 0 = 36) ∨ 46 ∈ s) →
      writeElement (.kstr s) v ⟨D, M, none⟩ true true =
        .error ⟨.invalidKeyName, true⟩) ∧
    (validateUtf8 s false = .valid →
      (¬(s ≠ [] ∧ s.headD 0 = 36) ∧ 46 ∉ s) →
      goodVal M (.vstr ns) = true → goodVal M (.vobjid ob) = true →
      writeElement (.kstr s) (.vdbref (.vstr ns) (.vobjid ob)) ⟨D, M, none⟩
          true true =
        .ok ⟨D ++ encElt s (.vdbref (.vstr ns) (.vobjid ob)), M, none⟩) :=
  ⟨fun h => writeElement_keyErr s v D M none h,
    fun hkey hck hns hob => writeElement_dbref s ns ob D M hkey hck hns hob⟩

/-- C7 witness: the key `"$a"` is rejected, the key `"a.b"` is rejected,
and a DBRef under `check_keys=true` serializes with its `$ref`/`$id`
keys. -/
theorem C7_keyCheck_witness :
    writeElement (.kstr [36, 97]) (.vint 1) ⟨[], 100, none⟩ true true =
      .error ⟨.invalidKeyName, true⟩ ∧
    writeElement (.kstr [97, 46, 98]) (.vint 1) ⟨[], 100, none⟩ true true =
      .error ⟨.invalidKeyName, true⟩ ∧
    writeElement (.kstr [97]) (.vdbref (.vstr [99]) (.vobjid
        [0, 1, 2, 3, 4, 5, 6, 7, 8, 9, 10, 11])) ⟨[], 100, none⟩ true true =
      .ok ⟨[] ++ encElt [97] (.vdbref (.vstr [99]) (.vobjid
        [0, 1, 2, 3, 4, 5, 6, 7, 8, 9, 10, 11])), 100, none⟩ :=
  ⟨(C7_keyCheck [36, 97] [] [] [] 100 (.vint 1)).1 (by decide),
    (C7_keyCheck [97, 46, 98] [] [] [] 100 (.vint 1)).1 (by decide),
    (C7_keyCheck [97] [99] [0, 1, 2, 3, 4, 5, 6, 7, 8, 9, 10, 11] [] 100
        (.vint 1)).2 (by decide) (by decide) (by decide) (by decide)⟩

/-- C8: corrected.  Every tag outside `{1..18, 127, 255}` raises
`TypeError` naming the tag; but the claim's table omits tag 6 (deprecated
undefined), which the decoder accepts and maps to `nil` like tag 10 (see
the counterexample), and includes every tag from 0x01 through 0x12. -/
theorem C8_unknownTag (f : Nat) (B : List Nat) (pos : Int) (cr : Bool)
    (tag : Nat) (hlt : tag < 256)
    (hmem : tag ∉ ([1, 2, 3, 4, 5, 6, 7, 8, 9, 10, 11, 12, 13, 14, 15, 16,
      17, 18, 127, 255] : List Nat)) :
    getValue (f + 1) B pos tag cr = .error (.typeError tag) := by
  interval_cases tag <;> first | rfl | exact absurd (by decide) hmem

/-- C8 witness: tag 19 raises `TypeError 19`. -/
theorem C8_unknownTag_witness :
    getValue 1 [] 0 19 true = .error (.typeError 19) :=
  C8_unknownTag 0 [] 0 true 19 (by decide) (by decide)

/-- C8 counterexample: tag 6 is not in the claim's table, yet it decodes
to `nil` (like tag 10) instead of raising `TypeError`. -/
theorem C8_counterexample :
    getValue 1 [] 0 6 true = .ok (.vnull, 0) ∧
    getValue 1 [] 0 20 true = .error (.typeError 20) := ⟨rfl, rfl⟩

/-- C9: corrected.  On hosts with `sizeof(unsigned int) == 4` the claim
holds: two consecutive ids with the same time, digest and pid agree on
bytes 4..8, and the big-endian counter in bytes 9..11 advances by
`+1 mod 2^24`.  But the counter does not wrap modulo `2^24` "regardless of
host word size": on any other width the source wraps the stored counter
modulo `0xFFFFFF = 2^24 - 1` (third conjunct), skipping the value
`0xFFFFFF` (see the counterexample). -/
theorem C9_objectid (t : Nat) (dg : List Nat) (pid c : Nat)
    (hdg : 3 ≤ dg.length) :
    (((objectidGenerate true t dg pid c).1.drop 4).take 5 =
      (((objectidGenerate true t dg pid
        (objectidGenerate true t dg pid c).2).1.drop 4)).take 5) ∧
    beVal ((objectidGenerate true t dg pid
        (objectidGenerate true t dg pid c).2).1.drop 9) =
      (beVal ((objectidGenerate true t dg pid c).1.drop 9) + 1) % 2 ^ 24 ∧
    (∀ c', (objectidGenerate false t dg pid c').2 = (c' + 1) % (2 ^ 24 - 1)) := by
  have hlen4 : (beBytes 4 t).length = 4 := by simp [beBytes, leBytes_length]
  have hlen9 : (beBytes 4 t ++ dg.take 3 ++ beBytes 2 pid).length = 9 := by
    simp [beBytes, leBytes_length, List.length_take]
    omega
  have hdrop : ∀ x : Nat,
      (beBytes 4 t ++ dg.take 3 ++ beBytes 2 pid ++ beBytes 3 x).drop 9 =
        beBytes 3 x := by
    intro x
    rw [List.drop_left' hlen9]
  have htake : ∀ x : Nat,
      ((beBytes 4 t ++ dg.take 3 ++ beBytes 2 pid ++ beBytes 3 x).drop 4).take 5 =
        dg.take 3 ++ beBytes 2 pid := by
    intro x
    rw [List.append_assoc, List.append_assoc]
    rw [List.drop_left' hlen4]
    rw [← List.append_assoc]
    have h5 : (dg.take 3 ++ beBytes 2 pid).length = 5 := by
      simp [beBytes, leBytes_length, List.length_take]
      omega
    rw [List.take_left' h5]
  have hbe : ∀ m : Nat, beVal (beBytes 3 m) = m % 2 ^ 24 := by
    intro m
    simp [beVal, beBytes, leVal_leBytes]
  refine ⟨?_, ?_, ?_⟩
  · simp only [objectidGenerate, if_true]
    rw [htake, htake]
  · simp only [objectidGenerate, if_true]
    rw [hdrop, hdrop, hbe, hbe]
    omega
  · intro c'
    simp [objectidGenerate]

/-- C9 witness: the id pair at time 0, digest `[1,2,3]`, pid 7,
counter 5. -/
theorem C9_objectid_witness :
    (((objectidGenerate true 0 [1, 2, 3] 7 5).1.drop 4).take 5 =
      (((objectidGenerate true 0 [1, 2, 3] 7
        (objectidGenerate true 0 [1, 2, 3] 7 5).2).1.drop 4)).take 5) ∧
    beVal ((objectidGenerate true 0 [1, 2, 3] 7
        (objectidGenerate true 0 [1, 2, 3] 7 5).2).1.drop 9) =
      (beVal ((objectidGenerate true 0 [1, 2, 3] 7 5).1.drop 9) + 1) % 2 ^ 24 ∧
    (∀ c', (objectidGenerate false 0 [1, 2, 3] 7 c').2 =
      (c' + 1) % (2 ^ 24 - 1)) :=
  C9_objectid 0 [1, 2, 3] 7 5 (by decide)

/-- C9 counterexample: with a non-4-byte `unsigned int`, starting from
counter `0xFFFFFD` the second id's counter bytes are `[0, 0, 0]`, not the
claimed `+1 mod 2^24` successor `0xFFFFFF` of the first id's `0xFFFFFE`:
the stored counter wraps modulo `0xFFFFFF = 2^24 - 1`. -/
theorem C9_counterexample :
    beVal ((objectidGenerate false 0 [1, 2, 3] 7
        (objectidGenerate false 0 [1, 2, 3] 7 16777213).2).1.drop 9) = 0 ∧
    (beVal ((objectidGenerate false 0 [1, 2, 3] 7 16777213).1.drop 9) + 1) %
        2 ^ 24 = 16777215 := by
  exact ⟨by decide, by decide⟩

/-- C10: corrected.  A top-level argument that is not a hash does fail and
return no bytes, but not always with `InvalidDocument`: with `move_id`
true (the C driver's insert path) the `has_key?` call on the non-hash
raises `NoMethodError` before the class dispatch, and without freeing the
buffer; only with `move_id` false does the class dispatch raise
`InvalidDocument` (after freeing). -/
theorem C10_nonHash (v : RVal) (M : Int) (ck : Bool)
    (h : ∀ cls dd, v ≠ RVal.vhash cls dd) :
    writeDoc ⟨[], M, none⟩ v ck true = .error ⟨.noMethod, false⟩ ∧
    writeDoc ⟨[], M, none⟩ v ck false = .error ⟨.invalidDocument, true⟩ := by
  cases v <;> first
  | exact absurd rfl (h _ _)
  | exact ⟨rfl, rfl⟩

/-- C10 witness: the integer 5 as the top-level argument. -/
theorem C10_nonHash_witness :
    writeDoc ⟨[], 100, none⟩ (.vint 5) false true =
      .error ⟨.noMethod, false⟩ ∧
    writeDoc ⟨[], 100, none⟩ (.vint 5) false false =
      .error ⟨.invalidDocument, true⟩ :=
  C10_nonHash (.vint 5) 100 false (by intro cls dd hcon; cases hcon)

/-- C10 counterexample: `serialize(5, move_id=true)` raises
`NoMethodError` (buffer not freed), not the claimed `InvalidDocument`;
with `move_id=false` it is `InvalidDocument`. -/
theorem C10_counterexample :
    serializeModel (.vint 5) false true 100 none =
      .error ⟨.noMethod, false⟩ ∧
    serializeModel (.vint 5) false false 100 none =
      .error ⟨.invalidDocument, true⟩ := ⟨rfl, rfl⟩

end CBson
